import Mathlib

/-!
Verification of the logripper merge pipeline.

A shallow embedding of `logripper.py` (the most complete revision of the
repository). Text is modelled as `List Char`, the decoded reader of a log
stream as the list of its remaining lines (each line keeps its trailing
newline, as Python readline does), and timestamps as integers counting
microseconds relative to the Unix epoch (Python datetime stores microsecond
precision; aware datetimes compare by their UTC instant, which this integer
is). The regular expression `iso_re` is modelled by an explicit matcher
that follows the Python regex semantics for this particular pattern:
leftmost match, alternatives tried in order, greedy optional groups. Since
every group after the mandatory date-time core is optional and final, no
backtracking across groups can occur, so the ordered greedy matcher below
is exact. The character class for a digit is modelled as an ASCII digit;
the inputs considered here are ASCII.
-/

/-- Text is a list of characters. -/
abbrev Str := List Char

/-- Model of the regex class for a digit (ASCII digits). -/
def isDig (c : Char) : Bool := '0' ≤ c ∧ c ≤ '9'

/-- Whitespace stripped by Python `str.strip`. -/
def isPySpace (c : Char) : Bool :=
  c = ' ' ∨ c = '\t' ∨ c = '\n' ∨ c = '\x0d' ∨ c = '\x0b' ∨ c = '\x0c'

/-- Model of Python `str.strip`: drop whitespace from both ends. -/
def strip (s : Str) : Str :=
  ((s.dropWhile isPySpace).reverse.dropWhile isPySpace).reverse

/-- Split decoded text into lines, each keeping its trailing newline,
exactly as repeated calls of Python readline would yield them. The
accumulator holds the reversed current line. -/
def splitLinesAux : Str → Str → List Str
  | acc, [] => if acc.isEmpty then [] else [acc.reverse]
  | acc, c :: cs =>
    if c = '\n' then (acc.reverse ++ ['\n']) :: splitLinesAux [] cs
    else splitLinesAux (c :: acc) cs

/-- Split decoded text into the list of lines a Python text reader yields. -/
def splitLines (s : Str) : List Str := splitLinesAux [] s

/-! ## The timestamp pattern

`iso_re` in the source:
`\d{4}-\d{2}-\d{2}[T ]\d{2}:\d{2}:\d{2}(\.(\d{9}|\d{6}|\d{3}))?(Z|[+-]\d{4}|[+-]\d{2}(:\d{2})?)?`

Each matcher piece returns the consumed characters and the remaining
input. -/

/-- Consume exactly `n` digits. -/
def takeDigits : Nat → Str → Option (Str × Str)
  | 0, cs => some ([], cs)
  | _ + 1, [] => none
  | n + 1, c :: cs =>
    if isDig c then
      match takeDigits n cs with
      | some (a, r) => some (c :: a, r)
      | none => none
    else none

/-- Consume exactly the literal character `x`. -/
def litc (x : Char) : Str → Option (Str × Str)
  | [] => none
  | c :: cs => if c = x then some ([c], cs) else none

/-- Consume the `[T ]` separator. -/
def sepTS : Str → Option (Str × Str)
  | [] => none
  | c :: cs => if c = 'T' ∨ c = ' ' then some ([c], cs) else none

/-- Sequencing of two matcher pieces. -/
def pseq (p q : Str → Option (Str × Str)) (cs : Str) : Option (Str × Str) :=
  match p cs with
  | none => none
  | some (a, r) =>
    match q r with
    | none => none
    | some (b, r2) => some (a ++ b, r2)

/-- The mandatory part of the pattern:
`\d{4}-\d{2}-\d{2}[T ]\d{2}:\d{2}:\d{2}`. -/
def matchCore : Str → Option (Str × Str) :=
  pseq (takeDigits 4) (pseq (litc '-') (pseq (takeDigits 2) (pseq (litc '-')
    (pseq (takeDigits 2) (pseq sepTS (pseq (takeDigits 2) (pseq (litc ':')
      (pseq (takeDigits 2) (pseq (litc ':') (takeDigits 2))))))))))

/-- The optional fractional-seconds group `(\.(\d{9}|\d{6}|\d{3}))?`:
greedy, alternatives in order, and when the group fails it consumes
nothing. -/
def matchFrac (cs : Str) : Str × Str :=
  match cs with
  | [] => ([], [])
  | c :: rest =>
    if c = '.' then
      match takeDigits 9 rest with
      | some (a, r) => (c :: a, r)
      | none =>
        match takeDigits 6 rest with
        | some (a, r) => (c :: a, r)
        | none =>
          match takeDigits 3 rest with
          | some (a, r) => (c :: a, r)
          | none => ([], c :: rest)
    else ([], c :: rest)

/-- The optional timezone group `(Z|[+-]\d{4}|[+-]\d{2}(:\d{2})?)?`:
greedy, alternatives in order, and when the group fails it consumes
nothing. -/
def matchTz (cs : Str) : Str × Str :=
  match cs with
  | [] => ([], [])
  | c :: rest =>
    if c = 'Z' then ([c], rest)
    else if c = '+' ∨ c = '-' then
      match takeDigits 4 rest with
      | some (a, r) => (c :: a, r)
      | none =>
        match takeDigits 2 rest with
        | some (a, r) =>
          (match r with
           | [] => (c :: a, r)
           | c2 :: r2 =>
             if c2 = ':' then
               match takeDigits 2 r2 with
               | some (b, r3) => (c :: a ++ c2 :: b, r3)
               | none => (c :: a, r)
             else (c :: a, r))
        | none => ([], c :: rest)
    else ([], c :: rest)

/-- Attempt to match the whole pattern at the start of `cs`, returning the
matched characters and the rest. -/
def matchAt (cs : Str) : Option (Str × Str) :=
  match matchCore cs with
  | none => none
  | some (a, r) =>
    let fr := matchFrac r
    let tz := matchTz fr.2
    some (a ++ fr.1 ++ tz.1, tz.2)

/-- Model of `iso_re.search`: try each start position from the left, and
at the first position where the pattern matches return
(text before the match, matched text, text after the match). -/
def isoSearch : Str → Option (Str × Str × Str)
  | [] => none
  | c :: cs =>
    match matchAt (c :: cs) with
    | some (m, r) => some ([], m, r)
    | none =>
      match isoSearch cs with
      | some (b, m, r) => some (c :: b, m, r)
      | none => none

/-! ## Parsing a matched timestamp into an instant

`parse_date` in the source is `dateutil.parser.parse(s).astimezone(tz=input_tz)`.
It is only ever applied to substrings matched by `iso_re`, whose layout is
fixed, so the components can be read off positionally. A string without an
explicit zone is a naive datetime, which `astimezone` interprets in the
system local zone; the run modelled here has the local zone and `input_tz`
both equal to UTC (the `--utc-in` default), so the offset of a naive string
is zero. Fractional parts finer than microseconds are truncated to the
microsecond precision of Python datetime. Component values that would make
`dateutil` raise (for example month 99) are mapped by the same arithmetic;
no claim depends on them. -/

/-- Numeric value of a digit string. -/
def digitsVal (s : Str) : Nat :=
  s.foldl (fun n c => 10 * n + (c.toNat - 48)) 0

/-- Days from the Unix epoch to a proleptic Gregorian civil date
(the standard era-based calendar algorithm, with floor division). -/
def daysFromCivil (y m d : Int) : Int :=
  let yy := if m ≤ 2 then y - 1 else y
  let era := Int.fdiv yy 400
  let yoe := yy - era * 400
  let mShift := if 2 < m then m - 3 else m + 9
  let doy := Int.fdiv (153 * mShift + 2) 5 + d - 1
  let doe := yoe * 365 + Int.fdiv yoe 4 - Int.fdiv yoe 100 + doy
  era * 146097 + doe - 719468

/-- Microseconds denoted by a matched fractional group (possibly empty). -/
def fracMicros (f : Str) : Nat :=
  match f with
  | '.' :: ds =>
    let v := digitsVal ds
    if ds.length = 9 then v / 1000
    else if ds.length = 6 then v
    else v * 1000
  | _ => 0

/-- Offset in minutes denoted by a matched timezone group (possibly
empty; an empty group is a naive datetime, interpreted at offset zero as
explained above). -/
def tzOffsetMinutes (z : Str) : Int :=
  match z with
  | [] => 0
  | 'Z' :: _ => 0
  | c :: ds =>
    let sign : Int := if c = '-' then -1 else 1
    match ds with
    | [h1, h2] => sign * ((digitsVal [h1, h2] : Int) * 60)
    | [h1, h2, m1, m2] => sign * ((digitsVal [h1, h2] : Int) * 60 + (digitsVal [m1, m2] : Int))
    | [h1, h2, _, m1, m2] => sign * ((digitsVal [h1, h2] : Int) * 60 + (digitsVal [m1, m2] : Int))
    | _ => 0

/-- Model of `parse_date` on a substring matched by `iso_re`:
the UTC instant in microseconds since the Unix epoch. -/
def parse_date (s : Str) : Int :=
  let yr : Int := digitsVal (s.take 4)
  let mo : Int := digitsVal ((s.drop 5).take 2)
  let dy : Int := digitsVal ((s.drop 8).take 2)
  let hh : Int := digitsVal ((s.drop 11).take 2)
  let mi : Int := digitsVal ((s.drop 14).take 2)
  let ss : Int := digitsVal ((s.drop 17).take 2)
  let rest := s.drop 19
  let fr := matchFrac rest
  let tz := matchTz fr.2
  let secs : Int :=
    daysFromCivil yr mo dy * 86400 + hh * 3600 + mi * 60 + ss - tzOffsetMinutes tz.1 * 60
  secs * 1000000 + (fracMicros fr.1 : Int)

/-- `min_date` in the source: `datetime(MINYEAR, 1, 1, tzinfo=utc)`,
that is 0001-01-01T00:00:00+00:00. -/
def min_date : Int := daysFromCivil 1 1 1 * 86400 * 1000000

/-- `max_date` in the source: `datetime(MAXYEAR, 12, 31, 23, 59, tzinfo=utc)`,
that is 9999-12-31T23:59:00+00:00 (the seconds and microseconds arguments
are omitted in the source and default to zero). -/
def max_date : Int := (daysFromCivil 9999 12 31 * 86400 + 23 * 3600 + 59 * 60) * 1000000

/-! ## Log streams

`LogStream` in the source wraps a decoded text reader. The reader is
modelled by the list of its remaining lines; `reader.readline()` pops the
head and returns the empty string at end of stream. -/

/-- The state of a `LogStream`: its logical path, the remaining lines of
the decoded reader, the lookahead buffer `current_line`, and the parsed
instant `current_time` of the buffered line (none for a continuation
line). -/
structure LogStream where
  path : List Str
  lines : List Str
  current_line : Str
  current_time : Option Int
deriving DecidableEq

/-- One `reader.readline()` call on the modelled reader. -/
def readerLine : List Str → Str × List Str
  | [] => ([], [])
  | l :: ls => (l, ls)

/-- The timestamp-extraction step of `peekline` (source lines 97 to 104):
search the line for the pattern; on a match, parse the matched substring
and keep only the text after the match (`current_line[end:]`); on no
match, keep the line unchanged with no instant. -/
def extractTimestamp (line : Str) : Option Int × Str :=
  match isoSearch line with
  | some (_, m, a) => (some (parse_date m), a)
  | none => (none, line)

/-- `LogStream.peekline`: when the lookahead buffer is empty, read one
line from the reader and run timestamp extraction on it; return the
buffer. -/
def peekline (s : LogStream) : Str × LogStream :=
  if s.current_line.isEmpty then
    let rl := readerLine s.lines
    let et := extractTimestamp rl.1
    (et.2, { s with lines := rl.2, current_line := et.2, current_time := et.1 })
  else (s.current_line, s)

/-- `LogStream.readline`: return the buffer (peeking first when it is
empty), then clear it. -/
def readline (s : LogStream) : Str × LogStream :=
  let pr := if s.current_line.isEmpty then peekline s else (s.current_line, s)
  (pr.1, { pr.2 with current_line := [] })

/-- The constructor loop of `LogStream.__init__`: after an initial peek,
while the current line is nonempty, carries no timestamp and the
look-ahead budget remains, consume it and peek again. -/
def initLoop : Nat → LogStream → LogStream
  | 0, s => s
  | n + 1, s =>
    if ¬s.current_line.isEmpty ∧ s.current_time = none then
      initLoop n (peekline (readline s).2).2
    else s

/-- `LogStream.__init__` with the default look-ahead budget of 10. -/
def LogStream.init (path : List Str) (ls : List Str) : LogStream :=
  initLoop 10 (peekline { path := path, lines := ls, current_line := [], current_time := none }).2

/-! ## The merge scheduler -/

/-- The number of lines a stream has not yet consumed: the remaining
reader lines plus the buffered one. Every advance step of the scheduler
consumes at least one, which bounds the loops below. -/
def LogStream.pending (s : LogStream) : Nat :=
  s.lines.length + (if s.current_line.isEmpty then 0 else 1)

/-- Total pending lines over a set of streams. -/
def totalPending (streams : List LogStream) : Nat :=
  (streams.map LogStream.pending).sum

/-- The sort key comparison of `remove_finished_streams`:
`result.sort(key=lambda s: s.current_time)`. Every stream in the sorted
list has a parsed current time, so the default never applies there. -/
def timeLE (a b : LogStream) : Prop :=
  a.current_time.getD 0 ≤ b.current_time.getD 0

instance : DecidableRel timeLE := fun a b => by unfold timeLE; infer_instance

instance : IsTotal LogStream timeLE :=
  ⟨fun a b => Int.le_total (a.current_time.getD 0) (b.current_time.getD 0)⟩

instance : IsTrans LogStream timeLE :=
  ⟨fun _ _ _ h1 h2 => Int.le_trans h1 h2⟩

/-- `remove_finished_streams`: peek every stream, keep those whose peek
returned nonempty text and whose current time parsed, and sort the kept
streams by current time. Python list.sort is stable, and a stable sort
with respect to a total preorder is uniquely determined, so the stable
`List.insertionSort` models it exactly. -/
def remove_finished_streams (streams : List LogStream) : List LogStream :=
  List.insertionSort timeLE
    ((streams.map (fun s => (peekline s).2)).filter
      (fun s => ¬s.current_line.isEmpty ∧ s.current_time.isSome))

/-- The inner loop of `iterate_through_logs`: while the next peeked line
of the oldest stream is nonempty and carries no timestamp, read it and
emit it with the governing instant of the previous timestamped line. The
fuel argument is the loop bound justified by `contLoop_stable` below. -/
def contLoop : Nat → Int → LogStream → List (Int × Str × List Str) × LogStream
  | 0, _, s => ([], s)
  | fuel + 1, ts, s0 =>
    let pk := peekline s0
    if ¬pk.1.isEmpty ∧ pk.2.current_time = none then
      let rd := readline pk.2
      let tl := contLoop fuel ts rd.2
      ((ts, rd.1, rd.2.path) :: tl.1, tl.2)
    else ([], pk.2)

/-- The outer loop of `iterate_through_logs`: drop finished streams and
sort, take the stream with the smallest current time, read and emit its
line (stripped) with its instant, absorb continuation lines, repeat. The
fuel argument is the loop bound justified by `iterLoop_stable` below. -/
def iterLoop : Nat → List LogStream → List (Int × Str × List Str)
  | 0, _ => []
  | fuel + 1, streams =>
    match remove_finished_streams streams with
    | [] => []
    | oldest :: rest =>
      let rd := readline oldest
      let ts := rd.2.current_time.getD 0
      let ct := contLoop (rd.2.pending + 1) ts rd.2
      (ts, strip rd.1, rd.2.path) :: (ct.1 ++ iterLoop fuel (ct.2 :: rest))

/-- `iterate_through_logs` as the outer loop run with sufficient fuel
(each iteration consumes at least one pending line, see
`iterLoop_stable`). Records are (governing instant, text, path); the
source yields `current_time.isoformat()` and `rip` parses it back, a
round trip that is the identity on the instant, so the instant itself is
carried here. -/
def iterate_through_logs (streams : List LogStream) : List (Int × Str × List Str) :=
  iterLoop (totalPending streams) streams

/-- The record filter of `rip` (source lines 261 to 266): strip the line,
and pass the record to output exactly when
`start_time <= timestamp < end_time`. Output-side timezone conversion
changes the rendering, not the instant, and is out of scope. -/
def rip_records (streams : List LogStream) (start_time end_time : Int) :
    List (Int × Str × List Str) :=
  (iterate_through_logs streams).filterMap (fun r =>
    if start_time ≤ r.1 ∧ r.1 < end_time then some (r.1, strip r.2.1, r.2.2) else none)

/-! ## Encoding sniffing

`guess_encoding` tries `["utf-16", "utf-8", "ascii"]` in order, decoding a
sample from a fresh read of the byte source for each attempt, and returns
the first encoding that decodes without `UnicodeError`. A byte source is
modelled as `Option (List Nat)`: `none` is an opener that yields nothing
(the tar-entry-without-extractable-data case), which raises
`AttributeError` on `__enter__`; `guess_encoding` swallows exactly that
and returns no encoding. The decoders below are the standard validating
decoders for the three codecs; the model decodes the whole content where
the source samples with a size hint, which does not affect the claims
settled here. -/

inductive PyEncoding where
  | utf16
  | utf8
  | ascii
deriving DecidableEq

/-- Decode strict 7-bit ASCII bytes, failing on any byte above 127. -/
def asciiDecode : List Nat → Option Str
  | [] => some []
  | b :: bs =>
    if b < 128 then (asciiDecode bs).map (fun t => Char.ofNat b :: t) else none

/-- A UTF-8 continuation byte. -/
def utf8Cont (b : Nat) : Bool := 128 ≤ b ∧ b < 192

/-- Allowed second byte of a three-byte UTF-8 sequence (excluding
overlong forms and surrogates, as Python does). -/
def utf8Second3 (b1 b2 : Nat) : Bool :=
  if b1 = 224 then 160 ≤ b2 ∧ b2 < 192
  else if b1 = 237 then 128 ≤ b2 ∧ b2 < 160
  else utf8Cont b2

/-- Allowed second byte of a four-byte UTF-8 sequence. -/
def utf8Second4 (b1 b2 : Nat) : Bool :=
  if b1 = 240 then 144 ≤ b2 ∧ b2 < 192
  else if b1 = 244 then 128 ≤ b2 ∧ b2 < 144
  else utf8Cont b2

/-- Decode UTF-8 bytes, failing on any invalid sequence. -/
def utf8Decode : List Nat → Option Str
  | [] => some []
  | b1 :: bs =>
    if b1 < 128 then (utf8Decode bs).map (fun t => Char.ofNat b1 :: t)
    else if 194 ≤ b1 ∧ b1 ≤ 223 then
      match bs with
      | b2 :: rest =>
        if utf8Cont b2 then
          (utf8Decode rest).map (fun t => Char.ofNat ((b1 - 192) * 64 + (b2 - 128)) :: t)
        else none
      | _ => none
    else if 224 ≤ b1 ∧ b1 ≤ 239 then
      match bs with
      | b2 :: b3 :: rest =>
        if utf8Second3 b1 b2 ∧ utf8Cont b3 then
          (utf8Decode rest).map
            (fun t => Char.ofNat ((b1 - 224) * 4096 + (b2 - 128) * 64 + (b3 - 128)) :: t)
        else none
      | _ => none
    else if 240 ≤ b1 ∧ b1 ≤ 244 then
      match bs with
      | b2 :: b3 :: b4 :: rest =>
        if utf8Second4 b1 b2 ∧ utf8Cont b3 ∧ utf8Cont b4 then
          (utf8Decode rest).map (fun t =>
            Char.ofNat
              ((b1 - 240) * 262144 + (b2 - 128) * 4096 + (b3 - 128) * 64 + (b4 - 128)) :: t)
        else none
      | _ => none
    else none

/-- Group UTF-16 bytes into 16-bit code units (big endian when the flag
is set), failing on truncated data (odd byte count). -/
def utf16Units (hiFirst : Bool) : List Nat → Option (List Nat)
  | [] => some []
  | [_] => none
  | b1 :: b2 :: rest =>
    let u := if hiFirst then b1 * 256 + b2 else b2 * 256 + b1
    (utf16Units hiFirst rest).map (fun t => u :: t)

/-- Combine UTF-16 code units into characters, failing on unpaired
surrogates. -/
def utf16Chars : List Nat → Option Str
  | [] => some []
  | u :: us =>
    if u < 55296 ∨ 57344 ≤ u then (utf16Chars us).map (fun t => Char.ofNat u :: t)
    else if u < 56320 then
      match us with
      | u2 :: rest =>
        if 56320 ≤ u2 ∧ u2 < 57344 then
          (utf16Chars rest).map
            (fun t => Char.ofNat (65536 + (u - 55296) * 1024 + (u2 - 56320)) :: t)
        else none
      | [] => none
    else none

/-- Decode UTF-16 bytes: honour a byte-order mark when present, default
to little endian otherwise (the Python behaviour on the platforms the
tool targets). -/
def utf16Decode (bs : List Nat) : Option Str :=
  match bs with
  | 255 :: 254 :: rest =>
    match utf16Units false rest with
    | some us => utf16Chars us
    | none => none
  | 254 :: 255 :: rest =>
    match utf16Units true rest with
    | some us => utf16Chars us
    | none => none
  | _ =>
    match utf16Units false bs with
    | some us => utf16Chars us
    | none => none

/-- Decoding attempt for one candidate encoding. -/
def decode : PyEncoding → List Nat → Option Str
  | .utf16, bs => utf16Decode bs
  | .utf8, bs => utf8Decode bs
  | .ascii, bs => asciiDecode bs

/-- The candidate loop of `guess_encoding`: return the first encoding
that decodes without error. -/
def guessLoop : List PyEncoding → List Nat → Option PyEncoding
  | [], _ => none
  | e :: es, bs => if (decode e bs).isSome then some e else guessLoop es bs

/-- `guess_encoding`: the ordered candidate list over a readable source;
no encoding at all for an unopenable source. -/
def guess_encoding : Option (List Nat) → Option PyEncoding
  | none => none
  | some bs => guessLoop [PyEncoding.utf16, PyEncoding.utf8, PyEncoding.ascii] bs

/-- `open_as_log`: sniff the encoding, construct the stream from a fresh
read, and accept it only when construction found a timestamp. An
unopenable source has no encoding and produces no stream. -/
def open_as_log (source : Option (List Nat)) (full_path : List Str) : Option LogStream :=
  match source, guess_encoding source with
  | some bs, some e =>
    let stream := LogStream.init full_path (splitLines ((decode e bs).getD []))
    if stream.current_time.isSome then some stream else none
  | _, _ => none

/-! ## Container traversal

A byte source is classified by what the ordered opener trial of `recurse`
finds: `open_as_zip` succeeds on it, `open_as_tar` succeeds on it, or it
is a leaf (readable raw bytes, or an opener that yields nothing). The
archive codecs themselves are external collaborators, so a node carries
its entry list directly. That list is flat, exactly as `infolist()` and
`getmembers()` return it: entries appear in index order, and an entry
name may span several path components — a directory entry `secret` can
sit next to a separate file entry `secret/a.log`. A name is therefore a
list of components, and composing it onto the parent logical path
(`parent_path / info.filename`) appends them all. -/

mutual
inductive Node where
  | zipA (entries : Entries)
  | tarA (entries : Entries)
  | raw (bytes : List Nat)
  | unreadable
inductive Entries where
  | nil
  | cons (name : List Str) (node : Node) (rest : Entries)
end

/-- Glob matching of one ignore-pattern component against one path
component, with the `*` and `?` wildcards of fnmatch. The fuel is the
obvious bound on the work. -/
def fnmatchFuel : Nat → Str → Str → Bool
  | 0, p, s => p.isEmpty ∧ s.isEmpty
  | _ + 1, [], s => s.isEmpty
  | fuel + 1, '*' :: ps, s =>
    (fnmatchFuel fuel ps s ||
      (match s with
       | [] => false
       | _ :: s2 => fnmatchFuel fuel ('*' :: ps) s2))
  | fuel + 1, '?' :: ps, s =>
    match s with
    | [] => false
    | _ :: s2 => fnmatchFuel fuel ps s2
  | fuel + 1, c :: ps, s =>
    match s with
    | [] => false
    | c2 :: s2 => c = c2 ∧ fnmatchFuel fuel ps s2

/-- Glob matching of one pattern component. -/
def fnmatch (p s : Str) : Bool := fnmatchFuel (p.length + s.length + 1) p s

/-- Model of `pathlib.PurePath.match` for a relative pattern: the last
components of the path must match the pattern components one by one. -/
def pathMatch (pat : List Str) (p : List Str) : Bool :=
  ¬pat.isEmpty ∧ pat.length ≤ p.length ∧
    (List.zip (p.drop (p.length - pat.length)) pat).all (fun x => fnmatch x.2 x.1)

/-- `is_ignored`: the logical path matches some pattern of the ignore
list. -/
def is_ignored (ignore_list : List (List Str)) (path : List Str) : Bool :=
  ignore_list.any (fun item => pathMatch item path)

mutual
/-- `recurse`: skip ignored paths, descend into zip and tar archives
(entry names composed onto the logical path), otherwise try the node as a
log leaf. -/
def recurseNode (ign : List (List Str)) : Node → List Str → List LogStream
  | n, full_path =>
    if is_ignored ign full_path then []
    else
      match n with
      | .zipA es => recurseEntries ign es full_path
      | .tarA es => recurseEntries ign es full_path
      | .raw bs => (open_as_log (some bs) full_path).toList
      | .unreadable => (open_as_log none full_path).toList
/-- The entry loop shared by `recurse_in_zip` and `recurse_in_tar`: a
flat pass over the archive index, each entry checked (inside `recurse`)
only against its own composed logical path. -/
def recurseEntries (ign : List (List Str)) : Entries → List Str → List LogStream
  | .nil, _ => []
  | .cons name node rest, parent =>
    recurseNode ign node (parent ++ name) ++ recurseEntries ign rest parent
end

/-- A filesystem entry: a directory or a file with its content. -/
inductive FsEntry where
  | dir
  | file (n : Node)

/-- A finite filesystem: logical paths with their entries. -/
abbrev FS := List (List Str × FsEntry)

/-- Look a path up in the filesystem. -/
def fsFind (fs : FS) (p : List Str) : Option FsEntry :=
  (fs.find? (fun e => decide (e.1 = p))).map (fun e => e.2)

/-- Lexicographic comparison of path components (character order). -/
def strLE : Str → Str → Bool
  | [], _ => true
  | _ :: _, [] => false
  | c :: cs, d :: ds => if c = d then strLE cs ds else decide (c < d)

/-- Lexicographic comparison of paths, modelling the sort order of
`sorted(paths)`. -/
def pathLE : List Str → List Str → Bool
  | [], _ => true
  | _ :: _, [] => false
  | x :: xs, y :: ys => if x = y then pathLE xs ys else strLE x y

/-- `recurse_in_filesystem`: expand the given roots up front (a file root
contributes itself, a directory root its full recursive listing), drop
duplicates, process the paths in sorted order, skipping ignored paths and
directories and recursing on files. -/
def recurse_in_filesystem (ign : List (List Str)) (filepaths : List (List Str)) (fs : FS) :
    List LogStream :=
  let collected := filepaths.foldr (fun path acc =>
    (match fsFind fs path with
     | some (.file _) => [path]
     | some .dir =>
       (fs.filter (fun e => path.isPrefixOf e.1 ∧ e.1 ≠ path)).map (fun e => e.1)
     | none => []) ++ acc) []
  let paths := List.insertionSort (fun a b => pathLE a b = true) collected.dedup
  paths.foldr (fun full_path acc =>
    (if is_ignored ign full_path then []
     else
       match fsFind fs full_path with
       | some (.file n) => recurseNode ign n full_path
       | _ => []) ++ acc) []

/-- `rip`: traverse the filesystem, merge the discovered streams, and
filter the records by the time range. -/
def rip (ign : List (List Str)) (filepaths : List (List Str)) (fs : FS)
    (start_time end_time : Int) : List (Int × Str × List Str) :=
  rip_records (recurse_in_filesystem ign filepaths fs) start_time end_time

/-! ## Derived notions used by the statements -/

/-- The bytes of an ASCII text. -/
def asciiBytes (s : Str) : List Nat := s.map Char.toNat

/-- The instants of the timestamped lines of a reader, in order. -/
def lineTimes (ls : List Str) : List Int :=
  ls.filterMap (fun l => (isoSearch l).map (fun x => parse_date x.2.1))

/-- All instants a stream can still contribute as governing instants: the
parsed time of a nonempty buffered line, followed by the instants of its
remaining timestamped lines. (An empty buffer never governs a record: the
next peek overwrites `current_time` before it is used, and a stream whose
peek leaves an empty buffer is evicted.) -/
def allTimes (s : LogStream) : List Int :=
  (if s.current_line.isEmpty then [] else s.current_time.toList) ++ lineTimes s.lines

/-- A stream is internally time-sorted when the instants it can
contribute are pairwise nondecreasing. -/
def TimeSorted (s : LogStream) : Prop :=
  (allTimes s).Pairwise (fun a b => a ≤ b)

instance : DecidablePred TimeSorted := fun s => by
  unfold TimeSorted
  infer_instance

/-! ## The claimed shape of a recognized timestamp

These definitions follow the words of the specification, to be compared
with the matcher translated from the source. -/

/-- Every character is a digit. -/
def allDig (s : Str) : Prop := ∀ c ∈ s, isDig c = true

/-- The claimed fractional-seconds suffix: absent, or a dot followed by
exactly 9, 6 or 3 digits. -/
def ClaimFrac (frac : Str) : Prop :=
  frac = [] ∨ ∃ f, frac = '.' :: f ∧ allDig f ∧ (f.length = 9 ∨ f.length = 6 ∨ f.length = 3)

/-- The claimed timezone suffix: absent, `Z`, a sign with four digits, or
a sign with two digits, a colon and two digits. -/
def ClaimTz (tz : Str) : Prop :=
  tz = [] ∨ tz = ['Z'] ∨
    ∃ c r, (c = '+' ∨ c = '-') ∧ tz = c :: r ∧
      ((allDig r ∧ r.length = 4) ∨
       ∃ hh mm, r = hh ++ ':' :: mm ∧ allDig hh ∧ hh.length = 2 ∧ allDig mm ∧ mm.length = 2)

/-- The timezone suffix as the code accepts it: additionally a bare sign
with two digits. -/
def ClaimTzAmended (tz : Str) : Prop :=
  ClaimTz tz ∨ ∃ c r, (c = '+' ∨ c = '-') ∧ tz = c :: r ∧ allDig r ∧ r.length = 2

/-- The claimed shape of a timestamp, parameterized by the allowed
timezone suffixes: 4-digit year, dash, 2-digit month, dash, 2-digit day,
a literal `T` or space, `HH:MM:SS`, an optional fractional part and an
optional timezone suffix. -/
def ClaimShape (tzP : Str → Prop) (s : Str) : Prop :=
  ∃ y mo d sep hh mi se frac tz,
    s = y ++ '-' :: mo ++ '-' :: d ++ sep :: hh ++ ':' :: mi ++ ':' :: se ++ frac ++ tz ∧
    allDig y ∧ y.length = 4 ∧ allDig mo ∧ mo.length = 2 ∧ allDig d ∧ d.length = 2 ∧
    (sep = 'T' ∨ sep = ' ') ∧ allDig hh ∧ hh.length = 2 ∧ allDig mi ∧ mi.length = 2 ∧
    allDig se ∧ se.length = 2 ∧ ClaimFrac frac ∧ tzP tz

/-! ## Concrete instances used by counterexamples and witnesses -/

/-- A path used by the concrete instances. -/
def exPath : List Str := [['p']]

/-- The continuation-line example of the specification. -/
def exContText : Str :=
  "2024-01-01T00:00:00Z start\nmore\nmore2\n2024-01-01T00:00:01Z end\n".data

/-- A single stream whose two timestamped lines are out of order. -/
def exUnsorted : LogStream :=
  LogStream.init exPath (splitLines "2024-01-02T00:00:00Z a\n2024-01-01T00:00:00Z b\n".data)

/-- A stream with instants 00:00:00, 00:00:02, 00:00:04. -/
def exEven : LogStream :=
  LogStream.init [['a']]
    (splitLines "2024-01-01T00:00:00Z a0\n2024-01-01T00:00:02Z a2\n2024-01-01T00:00:04Z a4\n".data)

/-- A stream with instants 00:00:01, 00:00:03. -/
def exOdd : LogStream :=
  LogStream.init [['b']]
    (splitLines "2024-01-01T00:00:01Z b1\n2024-01-01T00:00:03Z b3\n".data)

/-- A stream whose only record lies in the final minute of year 9999. -/
def exLate : LogStream :=
  LogStream.init exPath (splitLines "9999-12-31T23:59:30Z x\n".data)

/-- A fresh stream whose next line is a bare timestamp with no trailing
newline: peeking it consumes the line entirely. -/
def exTsOnly : LogStream :=
  { path := exPath, lines := ["2024-01-01T00:00:00Z".data, "next\n".data],
    current_line := [], current_time := none }

/-- A fresh stream whose only line is a bare timestamp. -/
def exTsOnlySingle : LogStream :=
  { path := exPath, lines := ["2024-01-01T00:00:00Z".data],
    current_line := [], current_time := none }

/-- An accepted stream with a normal nonempty lookahead buffer. -/
def exPlain : LogStream :=
  LogStream.init exPath (splitLines "2024-01-01T00:00:00Z hi\n".data)

/-- The ignore list of the traversal instance: ignore `secret`. -/
def exIgn : List (List Str) := [["secret".data]]

/-- A filesystem with a directory `r/secret` that matches the ignore list
and a log file beneath it. The content has odd byte length so that the
utf-16 attempt fails and the utf-8 attempt is chosen. -/
def exFs : FS :=
  [(["r".data], FsEntry.dir),
   (["r".data, "secret".data], FsEntry.dir),
   (["r".data, "secret".data, "a.log".data],
    FsEntry.file (Node.raw (asciiBytes "2024-01-01T00:00:00Z hi!\n".data)))]

/-- The traversal roots of the instance. -/
def exRoots : List (List Str) := [["r".data]]

/-- The stream the traversal produces for `r/secret/a.log`. -/
def exFsStream : LogStream :=
  LogStream.init ["r".data, "secret".data, "a.log".data]
    (splitLines "2024-01-01T00:00:00Z hi!\n".data)

/-- A zip node holding one log entry, used by an ignored-archive witness. -/
def exZipNode : Node :=
  Node.zipA (Entries.cons ["inner.log".data]
    (Node.raw (asciiBytes "2024-01-01T00:00:00Z hi!\n".data)) Entries.nil)

/-- A zip whose flat index lists a directory entry `secret` (opening a
directory entry yields empty bytes, which decode but hold no timestamp)
and, as a separate entry with a two-component name, the file
`secret/a.log` beneath it. -/
def exSecretZip : Node :=
  Node.zipA (Entries.cons ["secret".data] (Node.raw [])
    (Entries.cons ["secret".data, "a.log".data]
      (Node.raw (asciiBytes "2024-01-01T00:00:00Z hi!\n".data)) Entries.nil))

/-- The stream the traversal of `exSecretZip` at logical path `r.zip`
produces for the entry `secret/a.log`. -/
def exZipStream : LogStream :=
  LogStream.init ["r.zip".data, "secret".data, "a.log".data]
    (splitLines "2024-01-01T00:00:00Z hi!\n".data)

/-! ## Basic lookahead lemmas -/

/-- The text `peekline` returns is exactly the buffer it leaves behind. -/
theorem peekline_fst (s : LogStream) : (peekline s).1 = (peekline s).2.current_line := by
  unfold peekline
  by_cases h : s.current_line.isEmpty <;> simp [h]

/-- Peeking a stream whose buffer is nonempty changes nothing. -/
theorem peek_of_nonempty {s : LogStream} (h : ¬s.current_line.isEmpty) :
    peekline s = (s.current_line, s) := by
  unfold peekline
  simp [h]

/-- `peekline` does not change the path of a stream. -/
theorem peekline_path (s : LogStream) : (peekline s).2.path = s.path := by
  unfold peekline
  by_cases h : s.current_line.isEmpty <;> simp [h]

/-- `readline` does not change the path of a stream. -/
theorem readline_path (s : LogStream) : (readline s).2.path = s.path := by
  unfold readline
  by_cases h : s.current_line.isEmpty <;> simp [h, peekline_path]

/-- Reading a stream whose buffer is nonempty returns the buffer and
clears it. -/
theorem read_of_nonempty {s : LogStream} (h : ¬s.current_line.isEmpty) :
    readline s = (s.current_line, { s with current_line := [] }) := by
  unfold readline
  simp [h]

/-! ## Claim C8: peek and read interplay -/

/-- C8 amended. For every log stream: `readline` returns exactly the text
that `peekline` at the same point returns and leaves the lookahead buffer
empty; and when the first `peekline` returns nonempty text, a second
`peekline` with no intervening `readline` returns the same text and
leaves the whole stream state unchanged (so no additional line is
consumed and the stored current time is untouched). The nonemptiness
proviso is forced by `peek_read_cex` below: a peek that fully consumes
its line leaves an empty buffer, and the next peek then reads a fresh
line. -/
theorem peek_read_spec (s : LogStream) :
    (readline s).1 = (peekline s).1 ∧ (readline s).2.current_line = [] ∧
    ((peekline s).1 ≠ [] → peekline (peekline s).2 = ((peekline s).1, (peekline s).2)) := by
  refine ⟨?_, ?_, ?_⟩
  · unfold readline peekline
    by_cases h : s.current_line.isEmpty <;> simp [h]
  · unfold readline
    by_cases h : s.current_line.isEmpty <;> simp [h]
  · intro hne
    have hcl : (peekline s).2.current_line = (peekline s).1 := (peekline_fst s).symm
    have hne2 : ¬(peekline s).2.current_line.isEmpty := by
      rw [hcl, List.isEmpty_iff]
      exact hne
    rw [peek_of_nonempty hne2, hcl]

/-- Witness for C8 at a concrete accepted stream. -/
theorem peek_read_spec_witness :
    peekline (peekline exPlain).2 = ((peekline exPlain).1, (peekline exPlain).2) :=
  (peek_read_spec exPlain).2.2 (by decide)

/-- C8 counterexample: on a stream whose next line is exactly a
timestamp, two consecutive peeks return different text (the first
returns empty text after removing the full-line match, the second reads
and returns the following line), refuting the unconditional claim. -/
theorem peek_read_cex :
    (peekline (peekline exTsOnly).2).1 ≠ (peekline exTsOnly).1 ∧
    (peekline exTsOnly).2.current_time ≠ (peekline (peekline exTsOnly).2).2.current_time ∧
    (peekline (peekline exTsOnly).2).2.lines ≠ (peekline exTsOnly).2.lines := by
  decide

/-! ## Claim C2: continuation-line grouping -/

/-- C2 amended. On the specification example, the scheduler emits four
records with the claimed governing instants and paths; the first and
last line texts are stripped, but the two continuation-line records
carry the line text as read, including the trailing newline (the strip
of every record happens downstream in `rip`). -/
theorem continuation_grouping :
    iterate_through_logs [LogStream.init exPath (splitLines exContText)] =
      [(parse_date "2024-01-01T00:00:00Z".data, "start".data, exPath),
       (parse_date "2024-01-01T00:00:00Z".data, "more\n".data, exPath),
       (parse_date "2024-01-01T00:00:00Z".data, "more2\n".data, exPath),
       (parse_date "2024-01-01T00:00:01Z".data, "end".data, exPath)] := by
  decide

/-- C2 counterexample: the claimed record list, with bare `more` and
`more2` texts, differs from what the scheduler emits. -/
theorem continuation_grouping_cex :
    iterate_through_logs [LogStream.init exPath (splitLines exContText)] ≠
      [(parse_date "2024-01-01T00:00:00Z".data, "start".data, exPath),
       (parse_date "2024-01-01T00:00:00Z".data, "more".data, exPath),
       (parse_date "2024-01-01T00:00:00Z".data, "more2".data, exPath),
       (parse_date "2024-01-01T00:00:01Z".data, "end".data, exPath)] := by
  decide

/-! ## Claim C5: the time range filter -/

/-- C5 amended. A record is output by `rip` exactly when its governing
instant satisfies `start_time ≤ t < end_time` (a left-closed right-open
comparison), the output record being the stripped form of a record the
scheduler emitted. The defaults for unspecified bounds are `min_date`
(0001-01-01T00:00:00Z, which rejects nothing on the left) and `max_date`
(9999-12-31T23:59:00Z, which is one minute short of the maximum
representable instant and so can reject late records, see
`range_filter_cex`). -/
theorem range_filter_spec (streams : List LogStream) (start_time end_time : Int)
    (r : Int × Str × List Str) :
    r ∈ rip_records streams start_time end_time ↔
      ∃ q ∈ iterate_through_logs streams,
        start_time ≤ q.1 ∧ q.1 < end_time ∧ r = (q.1, strip q.2.1, q.2.2) := by
  unfold rip_records
  rw [List.mem_filterMap]
  constructor
  · rintro ⟨q, hq, hr⟩
    by_cases hc : start_time ≤ q.1 ∧ q.1 < end_time
    · rw [if_pos hc] at hr
      exact ⟨q, hq, hc.1, hc.2, (Option.some_inj.mp hr).symm⟩
    · rw [if_neg hc] at hr
      exact absurd hr (by simp)
  · rintro ⟨q, hq, h1, h2, hr⟩
    exact ⟨q, hq, by rw [if_pos ⟨h1, h2⟩, hr]⟩

/-- Witness for C5 at a concrete stream and the default bounds. -/
theorem range_filter_spec_witness :
    (parse_date "9999-12-31T23:59:30Z".data, "x".data, exPath) ∈
        rip_records [exLate] min_date max_date ↔
      ∃ q ∈ iterate_through_logs [exLate],
        min_date ≤ q.1 ∧ q.1 < max_date ∧
        (parse_date "9999-12-31T23:59:30Z".data, "x".data, exPath) =
          (q.1, strip q.2.1, q.2.2) :=
  range_filter_spec [exLate] min_date max_date
    (parse_date "9999-12-31T23:59:30Z".data, "x".data, exPath)

/-- C5 counterexample: with both bounds left at their defaults, a record
in the final minute of year 9999 is emitted by the scheduler yet
rejected by the filter, because `max_date` is 9999-12-31T23:59:00Z, not
the maximum representable instant; so an unspecified bound can reject
records. -/
theorem range_filter_cex :
    iterate_through_logs [exLate] =
      [(parse_date "9999-12-31T23:59:30Z".data, "x".data, exPath)] ∧
    max_date ≤ parse_date "9999-12-31T23:59:30Z".data ∧
    rip_records [exLate] min_date max_date = [] := by
  decide

/-! ## Claim C7: encoding sniffing -/

/-- C7. `guess_encoding` of an unopenable source is `none` rather than
an error, and `open_as_log` then produces no stream for that leaf; a
successful sniff returns a candidate from the fixed ordered list
utf-16, utf-8, ascii that decodes, with every earlier candidate failing;
and when every candidate fails the sniff returns `none`. -/
theorem guess_encoding_spec :
    (guess_encoding none = none ∧ ∀ p, open_as_log none p = none) ∧
    (∀ bs e, guess_encoding (some bs) = some e →
      (decode e bs).isSome = true ∧
      ∃ pre post,
        [PyEncoding.utf16, PyEncoding.utf8, PyEncoding.ascii] = pre ++ e :: post ∧
        ∀ d ∈ pre, (decode d bs).isSome = false) ∧
    ∀ bs, (∀ e ∈ [PyEncoding.utf16, PyEncoding.utf8, PyEncoding.ascii],
        (decode e bs).isSome = false) →
      guess_encoding (some bs) = none := by
  refine ⟨⟨rfl, fun p => rfl⟩, ?_, ?_⟩
  · intro bs e h
    simp only [guess_encoding, guessLoop] at h
    by_cases h16 : (decode PyEncoding.utf16 bs).isSome = true
    · rw [if_pos h16] at h
      cases h
      exact ⟨h16, [], _, rfl, by simp⟩
    · rw [if_neg h16] at h
      by_cases h8 : (decode PyEncoding.utf8 bs).isSome = true
      · rw [if_pos h8] at h
        cases h
        refine ⟨h8, [PyEncoding.utf16], _, rfl, ?_⟩
        intro d hd
        rw [List.mem_singleton] at hd
        subst hd
        exact Bool.eq_false_iff.mpr h16
      · rw [if_neg h8] at h
        by_cases h7 : (decode PyEncoding.ascii bs).isSome = true
        · rw [if_pos h7] at h
          cases h
          refine ⟨h7, [PyEncoding.utf16, PyEncoding.utf8], _, rfl, ?_⟩
          intro d hd
          rcases List.mem_cons.mp hd with hd | hd
          · subst hd
            exact Bool.eq_false_iff.mpr h16
          · rw [List.mem_singleton] at hd
            subst hd
            exact Bool.eq_false_iff.mpr h8
        · rw [if_neg h7] at h
          cases h
  · intro bs hall
    simp only [guess_encoding, guessLoop]
    rw [if_neg, if_neg, if_neg]
    · simp [hall PyEncoding.ascii (by simp)]
    · simp [hall PyEncoding.utf8 (by simp)]
    · simp [hall PyEncoding.utf16 (by simp)]

/-- Witness for C7: the unopenable case, and a byte content every
candidate rejects. -/
theorem guess_encoding_spec_witness :
    guess_encoding none = none ∧ open_as_log none exPath = none ∧
    guess_encoding (some [255]) = none :=
  ⟨guess_encoding_spec.1.1, guess_encoding_spec.1.2 exPath,
   guess_encoding_spec.2.2 [255] (by decide)⟩

/-! ## Instants contributed by a stream -/

theorem lineTimes_cons_some {l : Str} {ls : List Str} {b m a : Str}
    (h : isoSearch l = some (b, m, a)) :
    lineTimes (l :: ls) = parse_date m :: lineTimes ls := by
  simp [lineTimes, h]

theorem lineTimes_cons_none {l : Str} {ls : List Str} (h : isoSearch l = none) :
    lineTimes (l :: ls) = lineTimes ls := by
  simp [lineTimes, h]

theorem allTimes_clear (s : LogStream) :
    allTimes { s with current_line := [] } = lineTimes s.lines := by
  simp [allTimes]

theorem allTimes_live {s : LogStream} {T : Int} (hcl : ¬s.current_line.isEmpty)
    (hct : s.current_time = some T) :
    allTimes s = T :: lineTimes s.lines := by
  simp [allTimes, hct, Bool.not_eq_true] at *
  simp [hcl]

/-- `peekline` at end of stream. -/
theorem peekline_empty_nil {s : LogStream} (h : s.current_line.isEmpty) (hl : s.lines = []) :
    peekline s = ([], { s with lines := [], current_line := [], current_time := none }) := by
  unfold peekline
  simp [h, hl, readerLine, extractTimestamp, show isoSearch [] = none from rfl]

/-- `peekline` of a fresh line that carries a timestamp. -/
theorem peekline_empty_some {s : LogStream} {l : Str} {ls : List Str} {b m a : Str}
    (h : s.current_line.isEmpty) (hl : s.lines = l :: ls) (hs : isoSearch l = some (b, m, a)) :
    peekline s =
      (a, { s with lines := ls, current_line := a, current_time := some (parse_date m) }) := by
  unfold peekline
  simp [h, hl, readerLine, extractTimestamp, hs]

/-- `peekline` of a fresh line that carries no timestamp. -/
theorem peekline_empty_none {s : LogStream} {l : Str} {ls : List Str}
    (h : s.current_line.isEmpty) (hl : s.lines = l :: ls) (hs : isoSearch l = none) :
    peekline s = (l, { s with lines := ls, current_line := l, current_time := none }) := by
  unfold peekline
  simp [h, hl, readerLine, extractTimestamp, hs]

/-- Peeking only ever discards a leading instant: the instants of the
peeked stream are a suffix of the instants of the original. -/
theorem allTimes_peek (s : LogStream) : allTimes (peekline s).2 <:+ allTimes s := by
  by_cases h : s.current_line.isEmpty
  · cases hl : s.lines with
    | nil =>
      rw [peekline_empty_nil h hl]
      simp [allTimes, h, hl, lineTimes]
    | cons l ls =>
      cases hs : isoSearch l with
      | none =>
        rw [peekline_empty_none h hl hs]
        have hr : allTimes s = lineTimes ls := by
          simp [allTimes, h, hl, lineTimes_cons_none hs]
        rw [hr]
        simp [allTimes]
      | some x =>
        obtain ⟨b, m, a⟩ := x
        rw [peekline_empty_some h hl hs]
        have hr : allTimes s = parse_date m :: lineTimes ls := by
          simp [allTimes, h, hl, lineTimes_cons_some hs]
        rw [hr]
        by_cases ha : a.isEmpty
        · simp only [allTimes, ha, if_true, List.nil_append]
          exact List.suffix_cons _ _
        · simp only [allTimes, ha, if_false, Option.toList_some, List.singleton_append]
          exact List.suffix_refl _
  · rw [peek_of_nonempty h]

/-- Reading only ever discards leading instants. -/
theorem allTimes_read (s : LogStream) : allTimes (readline s).2 <:+ allTimes s := by
  unfold readline
  by_cases h : s.current_line.isEmpty
  · simp only [h, if_true]
    have h1 : allTimes { (peekline s).2 with current_line := [] } =
        lineTimes (peekline s).2.lines := allTimes_clear _
    have h2 : lineTimes (peekline s).2.lines <:+ allTimes (peekline s).2 :=
      List.suffix_append _ _
    exact (h1 ▸ h2).trans (allTimes_peek s)
  · simp only [h, if_false]
    have h1 : allTimes { s with current_line := [] } = lineTimes s.lines := allTimes_clear s
    exact h1 ▸ List.suffix_append _ _

/-! ## Pending-line accounting -/

theorem pending_clear (s : LogStream) :
    LogStream.pending { s with current_line := [] } ≤ s.pending := by
  unfold LogStream.pending
  by_cases h : s.current_line.isEmpty <;> simp [h]

theorem pending_peek (s : LogStream) : (peekline s).2.pending ≤ s.pending := by
  by_cases h : s.current_line.isEmpty
  · cases hl : s.lines with
    | nil =>
      rw [peekline_empty_nil h hl]
      unfold LogStream.pending
      simp [h, hl]
    | cons l ls =>
      cases hs : isoSearch l with
      | none =>
        rw [peekline_empty_none h hl hs]
        unfold LogStream.pending
        simp only [h, hl, List.length_cons]
        split <;> omega
      | some x =>
        obtain ⟨b, m, a⟩ := x
        rw [peekline_empty_some h hl hs]
        unfold LogStream.pending
        simp only [h, hl, List.length_cons]
        split <;> omega
  · rw [peek_of_nonempty h]

theorem pending_read_nonempty {s : LogStream} (h : ¬s.current_line.isEmpty) :
    (readline s).2.pending + 1 = s.pending := by
  rw [read_of_nonempty h]
  unfold LogStream.pending
  simp [h]

theorem pending_read (s : LogStream) : (readline s).2.pending ≤ s.pending := by
  unfold readline
  by_cases h : s.current_line.isEmpty
  · simp only [h, if_true]
    exact (pending_clear _).trans (pending_peek s)
  · simp only [h, if_false]
    exact pending_clear s

/-! ## Properties of the eviction and sorting pass -/

/-- Every stream kept by `remove_finished_streams` is the peeked form of
an input stream, has a nonempty buffer and a parsed current time. -/
theorem rfs_mem {ss : List LogStream} {t : LogStream}
    (h : t ∈ remove_finished_streams ss) :
    (∃ s ∈ ss, t = (peekline s).2) ∧ ¬t.current_line.isEmpty ∧ t.current_time.isSome := by
  unfold remove_finished_streams at h
  have h2 := (List.perm_insertionSort timeLE _).mem_iff.mp h
  rw [List.mem_filter] at h2
  obtain ⟨h3, h4⟩ := h2
  rw [List.mem_map] at h3
  obtain ⟨s, hs, he⟩ := h3
  simp only [decide_eq_true_eq] at h4
  exact ⟨⟨s, hs, he.symm⟩, h4.1, h4.2⟩

/-- The kept streams are sorted by current time. -/
theorem rfs_sorted (ss : List LogStream) :
    (remove_finished_streams ss).Sorted timeLE :=
  List.sorted_insertionSort timeLE _

theorem sum_map_filter_le {α : Type} (f : α → Nat) (p : α → Bool) (l : List α) :
    ((l.filter p).map f).sum ≤ (l.map f).sum := by
  induction l with
  | nil => simp
  | cons a l ih =>
    by_cases hp : p a <;> simp [hp] <;> omega

/-- The eviction pass cannot increase the number of pending lines. -/
theorem rfs_pending (ss : List LogStream) :
    totalPending (remove_finished_streams ss) ≤ totalPending ss := by
  unfold remove_finished_streams totalPending
  have hperm := List.perm_insertionSort timeLE
    ((ss.map (fun s => (peekline s).2)).filter
      (fun s => ¬s.current_line.isEmpty ∧ s.current_time.isSome))
  have h1 := (hperm.map LogStream.pending).sum_eq
  rw [h1]
  have h2 := sum_map_filter_le LogStream.pending
    (fun s => decide (¬s.current_line.isEmpty ∧ s.current_time.isSome))
    (ss.map (fun s => (peekline s).2))
  have h3 : ((ss.map (fun s => (peekline s).2)).map LogStream.pending).sum ≤
      (ss.map LogStream.pending).sum := by
    rw [List.map_map]
    exact List.sum_le_sum (fun s _ => pending_peek s)
  exact le_trans (le_trans h2 h3) (le_refl _)

/-- A stream with no pending lines has an empty reader and buffer. -/
theorem pending_zero_fields {s : LogStream} (h : s.pending = 0) :
    s.lines = [] ∧ s.current_line.isEmpty := by
  unfold LogStream.pending at h
  by_cases hc : s.current_line.isEmpty
  · simp only [hc, if_true, Nat.add_zero] at h
    exact ⟨List.eq_nil_of_length_eq_zero h, hc⟩
  · simp [hc] at h

/-- When nothing is pending, the eviction pass drops every stream. -/
theorem rfs_nil_of_zero {ss : List LogStream} (h : totalPending ss = 0) :
    remove_finished_streams ss = [] := by
  unfold remove_finished_streams
  have hfil : (ss.map (fun s => (peekline s).2)).filter
      (fun s => ¬s.current_line.isEmpty ∧ s.current_time.isSome) = [] := by
    rw [List.filter_eq_nil_iff]
    intro t ht
    rw [List.mem_map] at ht
    obtain ⟨s, hs, he⟩ := ht
    have hz : s.pending = 0 := by
      unfold totalPending at h
      have hall := List.sum_eq_zero_iff.mp h
      exact hall _ (List.mem_map_of_mem LogStream.pending hs)
    obtain ⟨hl, hc⟩ := pending_zero_fields hz
    rw [← he, peekline_empty_nil hc hl]
    simp
  rw [hfil]
  rfl

/-! ## Properties of the continuation loop -/

/-- Every record the continuation loop emits carries the governing
instant it was given. -/
theorem contLoop_times (f : Nat) (ts : Int) (s : LogStream) :
    ∀ r ∈ (contLoop f ts s).1, r.1 = ts := by
  induction f generalizing s with
  | zero =>
    intro r hr
    simp [contLoop] at hr
  | succ f ih =>
    intro r hr
    simp only [contLoop] at hr
    by_cases hc : ¬(peekline s).1.isEmpty ∧ (peekline s).2.current_time = none
    · rw [if_pos hc] at hr
      rcases List.mem_cons.mp hr with h | h
      · rw [h]
      · exact ih _ _ h
    · rw [if_neg hc] at hr
      simp at hr

/-- The continuation loop only ever discards leading instants. -/
theorem contLoop_suffix (f : Nat) (ts : Int) (s : LogStream) :
    allTimes (contLoop f ts s).2 <:+ allTimes s := by
  induction f generalizing s with
  | zero => simp [contLoop]
  | succ f ih =>
    simp only [contLoop]
    by_cases hc : ¬(peekline s).1.isEmpty ∧ (peekline s).2.current_time = none
    · rw [if_pos hc]
      exact ((ih _).trans (allTimes_read _)).trans (allTimes_peek s)
    · rw [if_neg hc]
      exact allTimes_peek s

/-- Each record the continuation loop emits consumes one pending line. -/
theorem contLoop_pending (f : Nat) (ts : Int) (s : LogStream) :
    (contLoop f ts s).2.pending + (contLoop f ts s).1.length ≤ s.pending := by
  induction f generalizing s with
  | zero => simp [contLoop]
  | succ f ih =>
    simp only [contLoop]
    by_cases hc : ¬(peekline s).1.isEmpty ∧ (peekline s).2.current_time = none
    · rw [if_pos hc]
      simp only [List.length_cons]
      have h1 : ¬(peekline s).2.current_line.isEmpty := by
        rw [← peekline_fst]
        exact hc.1
      have h2 := pending_read_nonempty h1
      have h3 := pending_peek s
      have h4 := ih (readline (peekline s).2).2
      omega
    · rw [if_neg hc]
      simpa using pending_peek s

/-- One more unit of fuel than the pending-line count is enough: the
continuation loop has reached its exit condition by then, so all larger
fuels agree. -/
theorem contLoop_stable (ts : Int) :
    ∀ f g s, s.pending + 1 ≤ f → s.pending + 1 ≤ g →
      contLoop f ts s = contLoop g ts s := by
  intro f
  induction f with
  | zero =>
    intro g s hf hg
    exact absurd hf (by omega)
  | succ f ih =>
    intro g s hf hg
    cases g with
    | zero => exact absurd hg (by omega)
    | succ g =>
      simp only [contLoop]
      by_cases hc : ¬(peekline s).1.isEmpty ∧ (peekline s).2.current_time = none
      · rw [if_pos hc, if_pos hc]
        have h1 : ¬(peekline s).2.current_line.isEmpty := by
          rw [← peekline_fst]
          exact hc.1
        have h2 := pending_read_nonempty h1
        have h3 := pending_peek s
        have h4 : contLoop f ts (readline (peekline s).2).2 =
            contLoop g ts (readline (peekline s).2).2 :=
          ih g _ (by omega) (by omega)
        rw [h4]
      · rw [if_neg hc, if_neg hc]

/-! ## Properties of the outer merge loop -/

/-- One advance step consumes at least one pending line. -/
theorem iterStep_pending {ss : List LogStream} {oldest : LogStream} {rest : List LogStream}
    (h : remove_finished_streams ss = oldest :: rest) (ts : Int) :
    totalPending ((contLoop ((readline oldest).2.pending + 1) ts
        (readline oldest).2).2 :: rest) + 1 ≤ totalPending ss := by
  have hmem : oldest ∈ remove_finished_streams ss := by
    rw [h]
    exact List.mem_cons_self _ _
  obtain ⟨_, hcl, _⟩ := rfs_mem hmem
  have h2 := pending_read_nonempty hcl
  have h3 := contLoop_pending ((readline oldest).2.pending + 1) ts (readline oldest).2
  have h4 := rfs_pending ss
  rw [h] at h4
  unfold totalPending at *
  simp only [List.map_cons, List.sum_cons] at *
  omega

/-- Fuel at least the number of pending lines determines the output of
the outer loop: every advance step consumes at least one pending line,
so the loop has drained every stream by then. -/
theorem iterLoop_stable :
    ∀ f g ss, totalPending ss ≤ f → totalPending ss ≤ g → iterLoop f ss = iterLoop g ss := by
  intro f
  induction f with
  | zero =>
    intro g ss hf _
    have hz : totalPending ss = 0 := Nat.le_zero.mp hf
    cases g with
    | zero => rfl
    | succ g => simp only [iterLoop, rfs_nil_of_zero hz]
  | succ f ih =>
    intro g ss hf hg
    cases hrf : remove_finished_streams ss with
    | nil =>
      cases g with
      | zero => simp only [iterLoop, hrf]
      | succ g => simp only [iterLoop, hrf]
    | cons oldest rest =>
      cases g with
      | zero =>
        have hz : totalPending ss = 0 := Nat.le_zero.mp hg
        rw [rfs_nil_of_zero hz] at hrf
        cases hrf
      | succ g =>
        simp only [iterLoop, hrf]
        have hd := iterStep_pending hrf ((readline oldest).2.current_time.getD 0)
        have h5 := ih g ((contLoop ((readline oldest).2.pending + 1)
            ((readline oldest).2.current_time.getD 0) (readline oldest).2).2 :: rest)
          (by omega) (by omega)
        rw [h5]

/-- The scheduler emits at most one record per input line. -/
theorem iterLoop_length : ∀ f ss, (iterLoop f ss).length ≤ totalPending ss := by
  intro f
  induction f with
  | zero =>
    intro ss
    simp [iterLoop]
  | succ f ih =>
    intro ss
    cases hrf : remove_finished_streams ss with
    | nil => simp [iterLoop, hrf]
    | cons oldest rest =>
      simp only [iterLoop, hrf, List.length_cons, List.length_append]
      have hmem : oldest ∈ remove_finished_streams ss := by
        rw [hrf]
        exact List.mem_cons_self _ _
      obtain ⟨_, hcl, _⟩ := rfs_mem hmem
      have h2 := pending_read_nonempty hcl
      have h3 := contLoop_pending ((readline oldest).2.pending + 1)
        ((readline oldest).2.current_time.getD 0) (readline oldest).2
      have h4 := rfs_pending ss
      rw [hrf] at h4
      have h5 := ih ((contLoop ((readline oldest).2.pending + 1)
        ((readline oldest).2.current_time.getD 0) (readline oldest).2).2 :: rest)
      unfold totalPending at *
      simp only [List.map_cons, List.sum_cons] at *
      omega

/-- The heart of claim C1: over internally time-sorted streams, the
outer loop emits records with nondecreasing governing instants, and any
lower bound on every remaining instant bounds every emitted record. -/
theorem iterLoop_mono :
    ∀ f ss, (∀ s ∈ ss, TimeSorted s) →
      (iterLoop f ss).Pairwise (fun r1 r2 => r1.1 ≤ r2.1) ∧
      ∀ t0 : Int, (∀ s ∈ ss, ∀ t ∈ allTimes s, t0 ≤ t) →
        ∀ r ∈ iterLoop f ss, t0 ≤ r.1 := by
  intro f
  induction f with
  | zero =>
    intro ss _
    refine ⟨by simp [iterLoop], ?_⟩
    intro t0 _ r hmem
    simp [iterLoop] at hmem
  | succ f ih =>
    intro ss hInv
    cases hrf : remove_finished_streams ss with
    | nil =>
      refine ⟨by simp [iterLoop, hrf], ?_⟩
      intro t0 _ r hmem
      simp [iterLoop, hrf] at hmem
    | cons o rest =>
      have hom : o ∈ remove_finished_streams ss := by
        rw [hrf]
        exact List.mem_cons_self _ _
      obtain ⟨⟨s0, hs0, he0⟩, hcl, hsome⟩ := rfs_mem hom
      obtain ⟨T, hT⟩ := Option.isSome_iff_exists.mp hsome
      have hsuf0 : allTimes o <:+ allTimes s0 := by
        rw [he0]
        exact allTimes_peek s0
      have hInvO : (allTimes o).Pairwise (fun a b => a ≤ b) :=
        List.Pairwise.sublist hsuf0.sublist (hInv s0 hs0)
      have hao : allTimes o = T :: lineTimes o.lines := allTimes_live hcl hT
      have hrd : readline o = (o.current_line, { o with current_line := [] }) :=
        read_of_nonempty hcl
      have hts : (readline o).2.current_time.getD 0 = T := by
        rw [hrd]
        simp [hT]
      have hard : allTimes (readline o).2 = lineTimes o.lines := by
        rw [hrd]
        exact allTimes_clear o
      have hsufct : allTimes (contLoop ((readline o).2.pending + 1)
          ((readline o).2.current_time.getD 0) (readline o).2).2 <:+ T :: lineTimes o.lines :=
        ((contLoop_suffix _ _ _).trans (hard ▸ List.suffix_refl _)).trans
          (List.suffix_cons _ _)
      have hTlb : ∀ t ∈ allTimes o, T ≤ t := by
        rw [hao]
        intro t htmem
        rcases List.mem_cons.mp htmem with h | h
        · exact h ▸ le_refl T
        · exact List.rel_of_pairwise_cons (hao ▸ hInvO) h
      have hTmemS0 : T ∈ allTimes s0 := by
        apply hsuf0.sublist.subset
        rw [hao]
        exact List.mem_cons_self _ _
      have hrestFacts : ∀ t ∈ rest, (∃ s1 ∈ ss, t = (peekline s1).2) ∧
          (allTimes t).Pairwise (fun a b => a ≤ b) ∧ ∀ x ∈ allTimes t, T ≤ x := by
        intro t ht
        have htm : t ∈ remove_finished_streams ss := by
          rw [hrf]
          exact List.mem_cons_of_mem _ ht
        obtain ⟨⟨s1, hs1, he1⟩, hcl1, hsome1⟩ := rfs_mem htm
        obtain ⟨Tt, hTt⟩ := Option.isSome_iff_exists.mp hsome1
        have hsuf1 : allTimes t <:+ allTimes s1 := by
          rw [he1]
          exact allTimes_peek s1
        have hInvT : (allTimes t).Pairwise (fun a b => a ≤ b) :=
          List.Pairwise.sublist hsuf1.sublist (hInv s1 hs1)
        have hat : allTimes t = Tt :: lineTimes t.lines := allTimes_live hcl1 hTt
        have hTleTt : T ≤ Tt := by
          have hrel := List.rel_of_sorted_cons (hrf ▸ rfs_sorted ss) t ht
          unfold timeLE at hrel
          rw [hT, hTt] at hrel
          simpa using hrel
        refine ⟨⟨s1, hs1, he1⟩, hInvT, ?_⟩
        intro x hx
        rw [hat] at hx
        rcases List.mem_cons.mp hx with h | h
        · exact h ▸ hTleTt
        · exact hTleTt.trans (List.rel_of_pairwise_cons (hat ▸ hInvT) h)
      have hInvNext : ∀ s1 ∈ (contLoop ((readline o).2.pending + 1)
          ((readline o).2.current_time.getD 0) (readline o).2).2 :: rest, TimeSorted s1 := by
        intro s1 hs1
        rcases List.mem_cons.mp hs1 with h | h
        · subst h
          exact List.Pairwise.sublist hsufct.sublist (hao ▸ hInvO)
        · exact ((hrestFacts s1 h).2).1
      obtain ⟨ihPair, ihLB⟩ := ih _ hInvNext
      have hLBrec : ∀ r ∈ iterLoop f ((contLoop ((readline o).2.pending + 1)
          ((readline o).2.current_time.getD 0) (readline o).2).2 :: rest), T ≤ r.1 := by
        apply ihLB
        intro s1 hs1 x hx
        rcases List.mem_cons.mp hs1 with h | h
        · subst h
          apply hTlb
          rw [hao]
          exact hsufct.sublist.subset hx
        · exact ((hrestFacts s1 h).2).2 x hx
      constructor
      · simp only [iterLoop, hrf]
        rw [List.pairwise_cons]
        constructor
        · intro r hmem
          rcases List.mem_append.mp hmem with h | h
          · rw [contLoop_times _ _ _ r h]
          · rw [hts]
            exact hLBrec r h
        · rw [List.pairwise_append]
          refine ⟨?_, ihPair, ?_⟩
          · apply List.pairwise_of_forall_mem_list
            intro a ha b hb
            rw [contLoop_times _ _ _ a ha, contLoop_times _ _ _ b hb]
          · intro a ha b hb
            rw [contLoop_times _ _ _ a ha, hts]
            exact hLBrec b hb
      · intro t0 hlb r hmem
        have ht0T : t0 ≤ T := hlb s0 hs0 T hTmemS0
        simp only [iterLoop, hrf] at hmem
        rcases List.mem_cons.mp hmem with h | h
        · rw [h]
          show t0 ≤ (readline o).2.current_time.getD 0
          rw [hts]
          exact ht0T
        · rcases List.mem_append.mp h with h2 | h2
          · rw [contLoop_times _ _ _ r h2, hts]
            exact ht0T
          · exact ht0T.trans (hLBrec r h2)

/-! ## Claim C1: the merge output is nondecreasing in time -/

/-- C1 amended. For every input set of streams each of which is
internally time-sorted (its buffered instant followed by the instants of
its remaining timestamped lines is nondecreasing), any two records the
scheduler emits in order have nondecreasing governing instants,
regardless of the order in which the streams are listed. The internal
sortedness hypothesis is forced by `merge_output_monotone_cex`: without
it a single stream reproduces its own disorder in the output. -/
theorem merge_output_monotone (streams : List LogStream)
    (h : ∀ s ∈ streams, TimeSorted s) :
    (iterate_through_logs streams).Pairwise (fun r1 r2 => r1.1 ≤ r2.1) :=
  (iterLoop_mono (totalPending streams) streams h).1

/-- Witness for C1: the two interleaved streams of the specification,
with instants 00:00:00/02/04 and 00:00:01/03. -/
theorem merge_output_monotone_witness :
    (iterate_through_logs [exEven, exOdd]).Pairwise (fun r1 r2 => r1.1 ≤ r2.1) :=
  merge_output_monotone [exEven, exOdd] (by decide)

/-- C1 counterexample: a single accepted stream whose two timestamped
lines are out of order is replayed in stream order, so the output is not
nondecreasing; the claim fails without a per-stream sortedness
hypothesis. -/
theorem merge_output_monotone_cex :
    ¬(iterate_through_logs [exUnsorted]).Pairwise (fun r1 r2 => r1.1 ≤ r2.1) := by
  decide

/-! ## Claim C9: a line that is nothing but a timestamp -/

/-- C9. When the next unread line of a stream is consumed entirely by
the timestamp match, the peek returns empty text while storing a parsed
instant; at the next eviction pass the stream is dropped (removing it
from the merge exactly as if it were absent), and the scheduler emits no
record for that line anywhere in its output. -/
theorem fully_consumed_line_dropped (a b : List LogStream) (s : LogStream) (l : Str)
    (rest : List Str) (h1 : s.current_line = []) (h2 : s.lines = l :: rest)
    (h3 : isoSearch l = some ([], l, [])) :
    (peekline s).1 = [] ∧ (peekline s).2.current_time.isSome ∧
    remove_finished_streams (a ++ s :: b) = remove_finished_streams (a ++ b) ∧
    iterate_through_logs (a ++ s :: b) = iterate_through_logs (a ++ b) := by
  have hce : s.current_line.isEmpty := by
    rw [h1]
    rfl
  have hp : peekline s =
      ([], { s with
              lines := rest
              current_line := []
              current_time := some (parse_date l) }) :=
    peekline_empty_some hce h2 h3
  have hfs : remove_finished_streams (a ++ s :: b) = remove_finished_streams (a ++ b) := by
    unfold remove_finished_streams
    congr 1
    simp only [List.map_append, List.map_cons, List.filter_append, List.filter_cons]
    rw [hp]
    simp
  refine ⟨by rw [hp], by rw [hp]; rfl, hfs, ?_⟩
  have hiter : ∀ f, iterLoop f (a ++ s :: b) = iterLoop f (a ++ b) := by
    intro f
    cases f with
    | zero => rfl
    | succ f => simp only [iterLoop, hfs]
  have hpend : totalPending (a ++ b) ≤ totalPending (a ++ s :: b) := by
    unfold totalPending
    simp only [List.map_append, List.map_cons, List.sum_append, List.sum_cons]
    omega
  calc iterate_through_logs (a ++ s :: b)
      = iterLoop (totalPending (a ++ s :: b)) (a ++ s :: b) := rfl
    _ = iterLoop (totalPending (a ++ s :: b)) (a ++ b) := hiter _
    _ = iterLoop (totalPending (a ++ b)) (a ++ b) :=
        iterLoop_stable _ _ _ hpend (le_refl _)
    _ = iterate_through_logs (a ++ b) := rfl

/-- Witness for C9 at a concrete one-line stream. -/
theorem fully_consumed_line_dropped_witness :
    (peekline exTsOnlySingle).1 = [] ∧ (peekline exTsOnlySingle).2.current_time.isSome ∧
    remove_finished_streams ([] ++ exTsOnlySingle :: []) = remove_finished_streams ([] ++ []) ∧
    iterate_through_logs ([] ++ exTsOnlySingle :: []) = iterate_through_logs ([] ++ []) :=
  fully_consumed_line_dropped [] [] exTsOnlySingle _ [] rfl rfl (by decide)

/-! ## Claim C10: termination and resource bound -/

/-- C10. The merge loop yields at most one record per pending input
line, and any fuel at least the pending-line count yields the same
output as the canonical run: every advance step consumes at least one
line and each line is read at most once, so the loop terminates with all
streams drained. -/
theorem merge_terminates (streams : List LogStream) :
    (iterate_through_logs streams).length ≤ totalPending streams ∧
    ∀ fuel, totalPending streams ≤ fuel →
      iterLoop fuel streams = iterate_through_logs streams :=
  ⟨iterLoop_length _ _,
   fun fuel hf => iterLoop_stable fuel (totalPending streams) streams hf (le_refl _)⟩

/-- Witness for C10 at a concrete stream and fuel. -/
theorem merge_terminates_witness :
    (iterate_through_logs [exPlain]).length ≤ totalPending [exPlain] ∧
    iterLoop 5 [exPlain] = iterate_through_logs [exPlain] :=
  ⟨(merge_terminates [exPlain]).1, (merge_terminates [exPlain]).2 5 (by decide)⟩

/-! ## Inversion lemmas for the matcher -/

theorem pseq_sound {p q : Str → Option (Str × Str)} {cs m r : Str}
    (h : pseq p q cs = some (m, r)) :
    ∃ x r1 y, p cs = some (x, r1) ∧ q r1 = some (y, r) ∧ m = x ++ y := by
  unfold pseq at h
  split at h
  · cases h
  · rename_i x r1 hp
    split at h
    · cases h
    · rename_i y r2 hq
      cases h
      exact ⟨x, r1, y, hp, hq, rfl⟩

theorem takeDigits_sound : ∀ {n : Nat} {cs a r : Str}, takeDigits n cs = some (a, r) →
    cs = a ++ r ∧ a.length = n ∧ allDig a := by
  intro n
  induction n with
  | zero =>
    intro cs a r h
    cases h
    exact ⟨rfl, rfl, fun c hc => absurd hc (List.not_mem_nil c)⟩
  | succ n ih =>
    intro cs a r h
    cases cs with
    | nil => cases h
    | cons c cs2 =>
      rw [takeDigits] at h
      by_cases hd : isDig c = true
      · rw [if_pos hd] at h
        cases ht : takeDigits n cs2 with
        | none =>
          rw [ht] at h
          cases h
        | some v =>
          obtain ⟨a2, r2⟩ := v
          rw [ht] at h
          cases h
          obtain ⟨he, hl, hall⟩ := ih ht
          refine ⟨by rw [List.cons_append, ← he], by simp [hl], ?_⟩
          intro x hx
          rcases List.mem_cons.mp hx with hx | hx
          · exact hx ▸ hd
          · exact hall x hx
      · rw [if_neg hd] at h
        cases h

theorem takeDigits_complete : ∀ {a : Str} (r : Str), allDig a →
    takeDigits a.length (a ++ r) = some (a, r) := by
  intro a
  induction a with
  | nil =>
    intro r _
    rfl
  | cons c a2 ih =>
    intro r hall
    have hd : isDig c = true := hall c (List.mem_cons_self _ _)
    show takeDigits (a2.length + 1) (c :: (a2 ++ r)) = _
    rw [takeDigits, if_pos hd, ih r (fun x hx => hall x (List.mem_cons_of_mem _ hx))]

/-- Exactly-n digits fails when fewer digits are available and the next
character, if any, is not a digit. -/
theorem takeDigits_blocked {n : Nat} {f t : Str} (_hall : allDig f) (hlen : f.length < n)
    (ht : ∀ c, t.head? = some c → isDig c = false) :
    takeDigits n (f ++ t) = none := by
  cases h : takeDigits n (f ++ t) with
  | none => rfl
  | some v =>
    obtain ⟨a, r⟩ := v
    obtain ⟨he, hl, hallA⟩ := takeDigits_sound h
    exfalso
    rcases List.append_eq_append_iff.mp he with ⟨x, hx1, hx2⟩ | ⟨x, hx1, hx2⟩
    · cases x with
      | nil =>
        rw [List.append_nil] at hx1
        rw [hx1] at hl
        omega
      | cons c x2 =>
        have hc1 : isDig c = true := by
          apply hallA c
          rw [hx1]
          exact List.mem_append_right _ (List.mem_cons_self _ _)
        have hc2 : isDig c = false := ht c (by rw [hx2]; rfl)
        rw [hc1] at hc2
        cases hc2
    · have hlx := congrArg List.length hx1
      rw [List.length_append, hl] at hlx
      omega

theorem litc_sound {x : Char} {cs a r : Str} (h : litc x cs = some (a, r)) :
    a = [x] ∧ cs = x :: r := by
  cases cs with
  | nil => cases h
  | cons c cs2 =>
    simp only [litc] at h
    by_cases hc : c = x
    · rw [if_pos hc] at h
      cases h
      exact ⟨by rw [hc], by rw [hc]⟩
    · rw [if_neg hc] at h
      cases h

theorem litc_complete (x : Char) (r : Str) : litc x (x :: r) = some ([x], r) := by
  simp [litc]

theorem sepTS_sound {cs a r : Str} (h : sepTS cs = some (a, r)) :
    ∃ c, a = [c] ∧ cs = c :: r ∧ (c = 'T' ∨ c = ' ') := by
  cases cs with
  | nil => cases h
  | cons c cs2 =>
    simp only [sepTS] at h
    by_cases hc : c = 'T' ∨ c = ' '
    · rw [if_pos hc] at h
      cases h
      exact ⟨c, rfl, rfl, hc⟩
    · rw [if_neg hc] at h
      cases h

theorem sepTS_complete {c : Char} (hc : c = 'T' ∨ c = ' ') (r : Str) :
    sepTS (c :: r) = some ([c], r) := by
  simp [sepTS, if_pos hc]

/-- The fractional group consumes an initial segment of the claimed
fractional shape. -/
theorem matchFrac_sound (cs : Str) :
    cs = (matchFrac cs).1 ++ (matchFrac cs).2 ∧ ClaimFrac (matchFrac cs).1 := by
  cases cs with
  | nil => exact ⟨rfl, Or.inl rfl⟩
  | cons c rest =>
    by_cases hc : c = '.'
    · simp only [matchFrac, if_pos hc]
      cases h9 : takeDigits 9 rest with
      | some v =>
        obtain ⟨a, r⟩ := v
        obtain ⟨he, hl, hall⟩ := takeDigits_sound h9
        exact ⟨by rw [List.cons_append, ← he], Or.inr ⟨a, by rw [hc], hall, Or.inl hl⟩⟩
      | none =>
        cases h6 : takeDigits 6 rest with
        | some v =>
          obtain ⟨a, r⟩ := v
          obtain ⟨he, hl, hall⟩ := takeDigits_sound h6
          exact ⟨by rw [List.cons_append, ← he],
                 Or.inr ⟨a, by rw [hc], hall, Or.inr (Or.inl hl)⟩⟩
        | none =>
          cases h3 : takeDigits 3 rest with
          | some v =>
            obtain ⟨a, r⟩ := v
            obtain ⟨he, hl, hall⟩ := takeDigits_sound h3
            exact ⟨by rw [List.cons_append, ← he],
                   Or.inr ⟨a, by rw [hc], hall, Or.inr (Or.inr hl)⟩⟩
          | none => exact ⟨rfl, Or.inl rfl⟩
    · simp only [matchFrac, if_neg hc]
      exact ⟨rfl, Or.inl rfl⟩

/-- The timezone group consumes an initial segment of a shape the code
accepts (the claimed shapes plus a bare sign with two digits). -/
theorem matchTz_sound (cs : Str) :
    cs = (matchTz cs).1 ++ (matchTz cs).2 ∧ ClaimTzAmended (matchTz cs).1 := by
  cases cs with
  | nil => exact ⟨rfl, Or.inl (Or.inl rfl)⟩
  | cons c rest =>
    by_cases hz : c = 'Z'
    · simp only [matchTz, if_pos hz]
      exact ⟨rfl, Or.inl (Or.inr (Or.inl (by rw [hz])))⟩
    · by_cases hpm : c = '+' ∨ c = '-'
      · cases h4 : takeDigits 4 rest with
        | some v =>
          obtain ⟨a, r⟩ := v
          obtain ⟨he, hl, hall⟩ := takeDigits_sound h4
          have hv : matchTz (c :: rest) = (c :: a, r) := by
            simp [matchTz, hz, hpm, h4]
          rw [hv]
          exact ⟨by rw [List.cons_append, ← he],
                 Or.inl (Or.inr (Or.inr ⟨c, a, hpm, rfl, Or.inl ⟨hall, hl⟩⟩))⟩
        | none =>
          cases h2 : takeDigits 2 rest with
          | some v =>
            obtain ⟨a, r⟩ := v
            obtain ⟨he, hl, hall⟩ := takeDigits_sound h2
            cases hr : r with
            | nil =>
              subst hr
              have hv : matchTz (c :: rest) = (c :: a, []) := by
                simp [matchTz, hz, hpm, h4, h2]
              rw [hv]
              exact ⟨by rw [List.cons_append, ← he], Or.inr ⟨c, a, hpm, rfl, hall, hl⟩⟩
            | cons c2 r2 =>
              subst hr
              by_cases hcol : c2 = ':'
              · cases h2b : takeDigits 2 r2 with
                | some w =>
                  obtain ⟨b, r3⟩ := w
                  obtain ⟨he2, hl2, hall2⟩ := takeDigits_sound h2b
                  have hv : matchTz (c :: rest) = (c :: a ++ c2 :: b, r3) := by
                    simp [matchTz, hz, hpm, h4, h2, hcol, h2b]
                  rw [hv]
                  refine ⟨?_, ?_⟩
                  · rw [he, he2]
                    simp [List.append_assoc]
                  · exact Or.inl (Or.inr (Or.inr ⟨c, a ++ c2 :: b, hpm, rfl,
                      Or.inr ⟨a, b, by rw [hcol], hall, hl, hall2, hl2⟩⟩))
                | none =>
                  have hv : matchTz (c :: rest) = (c :: a, c2 :: r2) := by
                    simp [matchTz, hz, hpm, h4, h2, hcol, h2b]
                  rw [hv]
                  exact ⟨by rw [List.cons_append, ← he], Or.inr ⟨c, a, hpm, rfl, hall, hl⟩⟩
              · have hv : matchTz (c :: rest) = (c :: a, c2 :: r2) := by
                  simp [matchTz, hz, hpm, h4, h2, hcol]
                rw [hv]
                exact ⟨by rw [List.cons_append, ← he], Or.inr ⟨c, a, hpm, rfl, hall, hl⟩⟩
          | none =>
            have hv : matchTz (c :: rest) = ([], c :: rest) := by
              simp [matchTz, hz, hpm, h4, h2]
            rw [hv]
            exact ⟨rfl, Or.inl (Or.inl rfl)⟩
      · have hv : matchTz (c :: rest) = ([], c :: rest) := by
          simp [matchTz, hz, hpm]
        rw [hv]
        exact ⟨rfl, Or.inl (Or.inl rfl)⟩

/-- A successful core match consumes a prefix of the input of the
claimed date-time shape. -/
theorem matchCore_sound {cs a r : Str} (h : matchCore cs = some (a, r)) :
    cs = a ++ r ∧
    ∃ y mo d sep hh mi se,
      a = y ++ '-' :: mo ++ '-' :: d ++ sep :: hh ++ ':' :: mi ++ ':' :: se ∧
      allDig y ∧ y.length = 4 ∧ allDig mo ∧ mo.length = 2 ∧ allDig d ∧ d.length = 2 ∧
      (sep = 'T' ∨ sep = ' ') ∧ allDig hh ∧ hh.length = 2 ∧ allDig mi ∧ mi.length = 2 ∧
      allDig se ∧ se.length = 2 := by
  obtain ⟨y, r1, m1, hA, h1, ha⟩ := pseq_sound h
  obtain ⟨d1, r2, m2, hB, h2, hm1⟩ := pseq_sound h1
  obtain ⟨mo, r3, m3, hC, h3, hm2⟩ := pseq_sound h2
  obtain ⟨d2, r4, m4, hD, h4, hm3⟩ := pseq_sound h3
  obtain ⟨dd, r5, m5, hE, h5, hm4⟩ := pseq_sound h4
  obtain ⟨sp, r6, m6, hF, h6, hm5⟩ := pseq_sound h5
  obtain ⟨hh, r7, m7, hG, h7, hm6⟩ := pseq_sound h6
  obtain ⟨c1, r8, m8, hH, h8, hm7⟩ := pseq_sound h7
  obtain ⟨mi, r9, m9, hI, h9, hm8⟩ := pseq_sound h8
  obtain ⟨c2, r10, se, hJ, hK, hm9⟩ := pseq_sound h9
  obtain ⟨hcsA, hylen, hydig⟩ := takeDigits_sound hA
  obtain ⟨hd1, hr1⟩ := litc_sound hB
  obtain ⟨hcsC, hmolen, hmodig⟩ := takeDigits_sound hC
  obtain ⟨hd2, hr3⟩ := litc_sound hD
  obtain ⟨hcsE, hddlen, hdddig⟩ := takeDigits_sound hE
  obtain ⟨spc, hsp, hr5, hspor⟩ := sepTS_sound hF
  obtain ⟨hcsG, hhhlen, hhhdig⟩ := takeDigits_sound hG
  obtain ⟨hc1, hr7⟩ := litc_sound hH
  obtain ⟨hcsI, hmilen, hmidig⟩ := takeDigits_sound hI
  obtain ⟨hc2, hr9⟩ := litc_sound hJ
  obtain ⟨hcsK, hselen, hsedig⟩ := takeDigits_sound hK
  subst ha hm1 hm2 hm3 hm4 hm5 hm6 hm7 hm8 hm9
  subst hd1 hd2 hsp hc1 hc2
  constructor
  · rw [hcsA, hr1, hcsC, hr3, hcsE, hr5, hcsG, hr7, hcsI, hr9, hcsK]
    simp [List.append_assoc]
  · exact ⟨y, mo, dd, spc, hh, mi, se, by simp [List.append_assoc], hydig, hylen,
      hmodig, hmolen, hdddig, hddlen, hspor, hhhdig, hhhlen, hmidig, hmilen,
      hsedig, hselen⟩

/-- A successful match consumes a prefix of the input. -/
theorem matchAt_sound {cs m r : Str} (h : matchAt cs = some (m, r)) : cs = m ++ r := by
  unfold matchAt at h
  split at h
  · cases h
  · rename_i a rr hc
    cases h
    obtain ⟨hcs, _⟩ := matchCore_sound hc
    have hf := (matchFrac_sound rr).1
    have ht := (matchTz_sound (matchFrac rr).2).1
    rw [hcs]
    conv_lhs => rw [hf]
    conv_lhs => rw [ht]
    simp [List.append_assoc]

/-! ## Search: leftmost-match characterization -/

theorem isoSearch_none_sound : ∀ {l : Str}, isoSearch l = none →
    ∀ i, matchAt (l.drop i) = none := by
  intro l
  induction l with
  | nil =>
    intro _ i
    rw [List.drop_nil]
    rfl
  | cons c cs ih =>
    intro h i
    unfold isoSearch at h
    cases hm : matchAt (c :: cs) with
    | some v =>
      obtain ⟨m, r⟩ := v
      rw [hm] at h
      cases h
    | none =>
      rw [hm] at h
      cases hs : isoSearch cs with
      | some v =>
        obtain ⟨b, m, r⟩ := v
        rw [hs] at h
        cases h
      | none =>
        cases i with
        | zero => exact hm
        | succ i => exact ih hs i

theorem isoSearch_some_sound : ∀ {l b m a : Str}, isoSearch l = some (b, m, a) →
    l = b ++ m ++ a ∧ matchAt (m ++ a) = some (m, a) ∧
      ∀ i < b.length, matchAt (l.drop i) = none := by
  intro l
  induction l with
  | nil =>
    intro b m a h
    cases h
  | cons c cs ih =>
    intro b m a h
    unfold isoSearch at h
    cases hm : matchAt (c :: cs) with
    | some v =>
      obtain ⟨m0, r0⟩ := v
      rw [hm] at h
      cases h
      have hcs := matchAt_sound hm
      refine ⟨by rw [List.nil_append, ← hcs], by rw [← hcs]; exact hm, ?_⟩
      intro i hi
      simp at hi
    | none =>
      rw [hm] at h
      cases hs : isoSearch cs with
      | none =>
        rw [hs] at h
        cases h
      | some v =>
        obtain ⟨b2, m2, a2⟩ := v
        rw [hs] at h
        cases h
        obtain ⟨h1, h2, h3⟩ := ih hs
        refine ⟨by rw [h1]; simp [List.append_assoc], h2, ?_⟩
        intro i hi
        cases i with
        | zero => exact hm
        | succ i => exact h3 i (by simpa using hi)

/-! ## Claim C3: timestamp extraction -/

/-- C3 amended. Extraction searches the whole line, not anchored at its
start, for the first (leftmost) substring matching the pattern: on no
match no start position matches and the line is returned unchanged with
no instant; on a match the line decomposes as before-match, match and
after-match, no earlier start position matches, the matched substring is
parsed, and the returned remaining text is exactly the text after the
match — the text before the match is discarded along with the matched
substring (see `extract_timestamp_cex`), not prepended as the claim
states. -/
theorem extract_timestamp_spec (line : Str) :
    (isoSearch line = none →
      (∀ i, matchAt (line.drop i) = none) ∧ extractTimestamp line = (none, line)) ∧
    ∀ b m a, isoSearch line = some (b, m, a) →
      line = b ++ m ++ a ∧ matchAt (m ++ a) = some (m, a) ∧
      (∀ i < b.length, matchAt (line.drop i) = none) ∧
      extractTimestamp line = (some (parse_date m), a) := by
  constructor
  · intro h
    refine ⟨isoSearch_none_sound h, ?_⟩
    unfold extractTimestamp
    rw [h]
  · intro b m a h
    obtain ⟨h1, h2, h3⟩ := isoSearch_some_sound h
    refine ⟨h1, h2, h3, ?_⟩
    unfold extractTimestamp
    rw [h]

/-- Witness for C3 at a concrete line with a log-level prefix. -/
theorem extract_timestamp_spec_witness :
    extractTimestamp "E 2024-01-01T00:00:00Z x".data =
      (some (parse_date "2024-01-01T00:00:00Z".data), " x".data) :=
  ((extract_timestamp_spec "E 2024-01-01T00:00:00Z x".data).2
    "E ".data "2024-01-01T00:00:00Z".data " x".data (by decide)).2.2.2

/-- C3 counterexample: the text before the match is not kept: the
remaining text is only the text after the match, not the concatenation
of the texts before and after it. -/
theorem extract_timestamp_cex :
    isoSearch "E 2024-01-01T00:00:00Z x".data =
      some ("E ".data, "2024-01-01T00:00:00Z".data, " x".data) ∧
    (extractTimestamp "E 2024-01-01T00:00:00Z x".data).2 ≠ "E ".data ++ " x".data := by
  decide

/-! ## Completeness lemmas for the matcher -/

theorem takeDigits_exact {a : Str} (hall : allDig a) : takeDigits a.length a = some (a, []) := by
  have h := takeDigits_complete [] hall
  rwa [List.append_nil] at h

/-- A timezone suffix never starts with a digit or a dot. -/
theorem claimTz_head {tz : Str} (h : ClaimTzAmended tz) :
    ∀ c, tz.head? = some c → isDig c = false ∧ c ≠ '.' := by
  intro c hc
  rcases h with (h | h | ⟨sg, r, hpm, heq, _⟩) | ⟨sg, r, hpm, heq, _⟩
  · subst h
    cases hc
  · subst h
    cases hc
    exact ⟨by decide, by decide⟩
  · subst heq
    cases hc
    rcases hpm with rfl | rfl
    · exact ⟨by decide, by decide⟩
    · exact ⟨by decide, by decide⟩
  · subst heq
    cases hc
    rcases hpm with rfl | rfl
    · exact ⟨by decide, by decide⟩
    · exact ⟨by decide, by decide⟩

theorem matchFrac_none {cs : Str} (h : ∀ c, cs.head? = some c → c ≠ '.') :
    matchFrac cs = ([], cs) := by
  cases cs with
  | nil => rfl
  | cons c rest => simp [matchFrac, h c rfl]

theorem matchFrac_complete_frac {f : Str} (rest : Str) (hall : allDig f)
    (hlen : f.length = 9 ∨ f.length = 6 ∨ f.length = 3)
    (hrest : ∀ c, rest.head? = some c → isDig c = false) :
    matchFrac ('.' :: (f ++ rest)) = ('.' :: f, rest) := by
  rcases hlen with h | h | h
  · have e9 : takeDigits 9 (f ++ rest) = some (f, rest) := by
      rw [← h]
      exact takeDigits_complete rest hall
    simp [matchFrac, e9]
  · have e9 : takeDigits 9 (f ++ rest) = none := takeDigits_blocked hall (by omega) hrest
    have e6 : takeDigits 6 (f ++ rest) = some (f, rest) := by
      rw [← h]
      exact takeDigits_complete rest hall
    simp [matchFrac, e9, e6]
  · have e9 : takeDigits 9 (f ++ rest) = none := takeDigits_blocked hall (by omega) hrest
    have e6 : takeDigits 6 (f ++ rest) = none := takeDigits_blocked hall (by omega) hrest
    have e3 : takeDigits 3 (f ++ rest) = some (f, rest) := by
      rw [← h]
      exact takeDigits_complete rest hall
    simp [matchFrac, e9, e6, e3]

theorem matchTz_complete {tz : Str} (h : ClaimTzAmended tz) : matchTz tz = (tz, []) := by
  rcases h with (h | h | ⟨sg, r, hpm, heq, hforms⟩) | ⟨sg, r, hpm, heq, hall, hlen⟩
  · subst h
    rfl
  · subst h
    simp [matchTz]
  · subst heq
    have hsgZ : sg ≠ 'Z' := by rcases hpm with rfl | rfl <;> decide
    rcases hforms with ⟨hall, hlen⟩ | ⟨hh, mm, hreq, hhall, hhlen, hmall, hmlen⟩
    · have e4 : takeDigits 4 r = some (r, []) := by
        rw [← hlen]
        exact takeDigits_exact hall
      simp [matchTz, hsgZ, hpm, e4]
    · subst hreq
      have e4 : takeDigits 4 (hh ++ ':' :: mm) = none := by
        apply takeDigits_blocked hhall (by omega)
        intro c hc
        cases hc
        decide
      have e2 : takeDigits 2 (hh ++ ':' :: mm) = some (hh, ':' :: mm) := by
        rw [← hhlen]
        exact takeDigits_complete _ hhall
      have e2b : takeDigits 2 mm = some (mm, []) := by
        rw [← hmlen]
        exact takeDigits_exact hmall
      simp [matchTz, hsgZ, hpm, e4, e2, e2b]
  · subst heq
    have hsgZ : sg ≠ 'Z' := by rcases hpm with rfl | rfl <;> decide
    have e4 : takeDigits 4 r = none := by
      have h4 := takeDigits_blocked (t := []) hall (n := 4) (by omega)
        (fun c hc => by cases hc)
      rwa [List.append_nil] at h4
    have e2 : takeDigits 2 r = some (r, []) := by
      rw [← hlen]
      exact takeDigits_exact hall
    simp [matchTz, hsgZ, hpm, e4, e2]

theorem matchCore_complete {y mo d hh mi se : Str} {sep : Char} (rest : Str)
    (hy : allDig y) (hyl : y.length = 4) (hmo : allDig mo) (hmol : mo.length = 2)
    (hd : allDig d) (hdl : d.length = 2) (hsep : sep = 'T' ∨ sep = ' ')
    (hhh : allDig hh) (hhl : hh.length = 2) (hmi : allDig mi) (hmil : mi.length = 2)
    (hse : allDig se) (hsel : se.length = 2) :
    matchCore
        (y ++ '-' :: (mo ++ '-' :: (d ++ sep :: (hh ++ ':' :: (mi ++ ':' :: (se ++ rest)))))) =
      some (y ++ '-' :: (mo ++ '-' :: (d ++ sep :: (hh ++ ':' :: (mi ++ ':' :: se)))), rest) := by
  have e1 : takeDigits 4
      (y ++ '-' :: (mo ++ '-' :: (d ++ sep :: (hh ++ ':' :: (mi ++ ':' :: (se ++ rest)))))) =
      some (y, '-' :: (mo ++ '-' :: (d ++ sep :: (hh ++ ':' :: (mi ++ ':' :: (se ++ rest)))))) := by
    rw [← hyl]
    exact takeDigits_complete _ hy
  have e3 : takeDigits 2 (mo ++ '-' :: (d ++ sep :: (hh ++ ':' :: (mi ++ ':' :: (se ++ rest))))) =
      some (mo, '-' :: (d ++ sep :: (hh ++ ':' :: (mi ++ ':' :: (se ++ rest))))) := by
    rw [← hmol]
    exact takeDigits_complete _ hmo
  have e5 : takeDigits 2 (d ++ sep :: (hh ++ ':' :: (mi ++ ':' :: (se ++ rest)))) =
      some (d, sep :: (hh ++ ':' :: (mi ++ ':' :: (se ++ rest)))) := by
    rw [← hdl]
    exact takeDigits_complete _ hd
  have e7 : takeDigits 2 (hh ++ ':' :: (mi ++ ':' :: (se ++ rest))) =
      some (hh, ':' :: (mi ++ ':' :: (se ++ rest))) := by
    rw [← hhl]
    exact takeDigits_complete _ hhh
  have e9 : takeDigits 2 (mi ++ ':' :: (se ++ rest)) = some (mi, ':' :: (se ++ rest)) := by
    rw [← hmil]
    exact takeDigits_complete _ hmi
  have e11 : takeDigits 2 (se ++ rest) = some (se, rest) := by
    rw [← hsel]
    exact takeDigits_complete _ hse
  unfold matchCore
  simp only [pseq, e1, litc_complete, e3, e5, sepTS_complete hsep, e7, e9, e11]
  simp

/-! ## Claim C4: the shape of a recognized timestamp -/

/-- C4 amended. A string is matched in full by the timestamp pattern
exactly when it has the claimed shape, with the timezone suffixes
extended by the bare sign-and-two-digits form `±HH` that the pattern
also accepts (see `timestamp_shape_cex`): 4-digit year, dash, 2-digit
month, dash, 2-digit day, a literal `T` or space, `HH:MM:SS`, optionally
a dot with exactly 9, 6 or 3 digits, and optionally `Z`, `±HHMM`, `±HH`
or `±HH:MM`. The matched substrings of a search are exactly the full
matches of the pattern, so this characterizes the substrings recognized
as timestamps. -/
theorem timestamp_shape_iff (s : Str) :
    matchAt s = some (s, []) ↔ ClaimShape ClaimTzAmended s := by
  constructor
  · intro h
    unfold matchAt at h
    split at h
    · cases h
    · rename_i a rr hc
      have h1 := Option.some.inj h
      have hm : a ++ (matchFrac rr).1 ++ (matchTz (matchFrac rr).2).1 = s :=
        congrArg Prod.fst h1
      obtain ⟨hcs, ⟨y, mo, d, sep, hh, mi, se, hdec, hy, hyl, hmo, hmol, hdd, hdl, hsep,
        hhh, hhl, hmi, hmil, hse, hsel⟩⟩ := matchCore_sound hc
      refine ⟨y, mo, d, sep, hh, mi, se, (matchFrac rr).1, (matchTz (matchFrac rr).2).1,
        ?_, hy, hyl, hmo, hmol, hdd, hdl, hsep, hhh, hhl, hmi, hmil, hse, hsel,
        (matchFrac_sound rr).2, (matchTz_sound (matchFrac rr).2).2⟩
      rw [← hm, hdec]
  · rintro ⟨y, mo, d, sep, hh, mi, se, frac, tz, hs, hy, hyl, hmo, hmol, hdd, hdl, hsep,
      hhh, hhl, hmi, hmil, hse, hsel, hfrac, htz⟩
    have hcore := matchCore_complete (frac ++ tz) hy hyl hmo hmol hdd hdl hsep
      hhh hhl hmi hmil hse hsel
    have hfr : matchFrac (frac ++ tz) = (frac, tz) := by
      rcases hfrac with rfl | ⟨f, rfl, hfall, hflen⟩
      · rw [List.nil_append]
        exact matchFrac_none (fun c hc => (claimTz_head htz c hc).2)
      · rw [List.cons_append]
        exact matchFrac_complete_frac tz hfall hflen (fun c hc => (claimTz_head htz c hc).1)
    have htze : matchTz tz = (tz, []) := matchTz_complete htz
    unfold matchAt
    rw [hs]
    simp only [List.append_assoc, List.cons_append]
    rw [hcore]
    simp only [hfr, htze]
    simp [List.append_assoc]

/-- Witness for C4: a plain timestamp has the claimed shape. -/
theorem timestamp_shape_iff_witness :
    ClaimShape ClaimTzAmended "2024-01-01T00:00:00Z".data :=
  (timestamp_shape_iff "2024-01-01T00:00:00Z".data).mp (by decide)

/-- The tail after the 19 fixed positions of a claimed shape is its
fractional part followed by its timezone part. -/
theorem claimShape_split {tzP : Str → Prop} {s : Str} (h : ClaimShape tzP s) :
    ∃ frac tz, s.drop 19 = frac ++ tz ∧ ClaimFrac frac ∧ tzP tz := by
  obtain ⟨y, mo, d, sep, hh, mi, se, frac, tz, hs, hy, hyl, hmo, hmol, hdd, hdl, hsep,
    hhh, hhl, hmi, hmil, hse, hsel, hfrac, htz⟩ := h
  refine ⟨frac, tz, ?_, hfrac, htz⟩
  have hpre : s = (y ++ '-' :: mo ++ '-' :: d ++ sep :: hh ++ ':' :: mi ++ ':' :: se) ++
      (frac ++ tz) := by
    rw [hs]
    simp [List.append_assoc]
  have hlen : (y ++ '-' :: mo ++ '-' :: d ++ sep :: hh ++ ':' :: mi ++ ':' :: se).length
      = 19 := by
    simp [List.length_append, hyl, hmol, hdl, hhl, hmil, hsel]
  rw [hpre, ← hlen, List.drop_left]

/-- C4 counterexample: the pattern also matches a bare `±HH` timezone
suffix, which the claimed suffix list omits, so the claimed shape is not
equivalent to the pattern. -/
theorem timestamp_shape_cex :
    matchAt "2024-01-01T00:00:00+05".data = some ("2024-01-01T00:00:00+05".data, []) ∧
    ¬ClaimShape ClaimTz "2024-01-01T00:00:00+05".data := by
  constructor
  · decide
  · intro h
    obtain ⟨frac, tz, heq, hfrac, htz⟩ := claimShape_split h
    have hdrop : ("2024-01-01T00:00:00+05".data).drop 19 = ['+', '0', '5'] := by decide
    rw [hdrop] at heq
    rcases hfrac with rfl | ⟨f, rfl, _, _⟩
    · rw [List.nil_append] at heq
      subst heq
      rcases htz with h0 | h0 | ⟨c, r, hpm, hceq, hforms⟩
      · exact absurd h0 (by decide)
      · exact absurd h0 (by decide)
      · cases hceq
        rcases hforms with ⟨_, hlen⟩ | ⟨hhc, mmc, hreq, _, hhl, _, hml⟩
        · exact absurd hlen (by decide)
        · have hlr := congrArg List.length hreq
          simp [hhl, hml] at hlr
    · rw [List.cons_append] at heq
      injection heq with h1 _
      exact absurd h1 (by decide)

/-! ## Claim C6: the ignore list -/

/-- An ignored node yields no streams and is not descended into. -/
theorem recurseNode_ignored {ign : List (List Str)} {n : Node} {p : List Str}
    (h : is_ignored ign p = true) : recurseNode ign n p = [] := by
  rw [recurseNode.eq_def]
  dsimp only
  rw [if_pos h]

theorem initLoop_path : ∀ (k : Nat) (s : LogStream), (initLoop k s).path = s.path := by
  intro k
  induction k with
  | zero =>
    intro s
    rfl
  | succ k ih =>
    intro s
    rw [initLoop]
    split
    · rw [ih, peekline_path, readline_path]
    · rfl

theorem LogStream_init_path (p : List Str) (ls : List Str) : (LogStream.init p ls).path = p := by
  unfold LogStream.init
  rw [initLoop_path, peekline_path]

theorem open_as_log_path {src : Option (List Nat)} {p : List Str} {s : LogStream}
    (h : open_as_log src p = some s) : s.path = p := by
  unfold open_as_log at h
  split at h
  · dsimp only at h
    split at h
    · cases h
      exact LogStream_init_path _ _
    · cases h
  · cases h

mutual
/-- Every stream the recursive traversal yields carries a path that is
not ignored: an ignored node is pruned before it is opened or descended
into, at every nesting level. -/
theorem recurseNode_paths (ign : List (List Str)) (n : Node) (p : List Str) (s : LogStream)
    (hs : s ∈ recurseNode ign n p) : is_ignored ign s.path = false := by
  rw [recurseNode.eq_def] at hs
  dsimp only at hs
  by_cases hig : is_ignored ign p = true
  · rw [if_pos hig] at hs
    cases hs
  · rw [if_neg hig] at hs
    cases n with
    | zipA es => exact recurseEntries_paths ign es p s hs
    | tarA es => exact recurseEntries_paths ign es p s hs
    | raw bs =>
      dsimp only at hs
      cases ho : open_as_log (some bs) p with
      | none =>
        rw [ho] at hs
        cases hs
      | some t =>
        rw [ho] at hs
        rw [Option.toList_some, List.mem_singleton] at hs
        subst hs
        rw [open_as_log_path ho]
        exact Bool.eq_false_iff.mpr hig
    | unreadable =>
      dsimp only at hs
      rw [show open_as_log none p = none from rfl] at hs
      cases hs

/-- The entry loop preserves the pruning property. -/
theorem recurseEntries_paths (ign : List (List Str)) (es : Entries) (p : List Str)
    (s : LogStream) (hs : s ∈ recurseEntries ign es p) : is_ignored ign s.path = false := by
  cases es with
  | nil =>
    rw [recurseEntries] at hs
    cases hs
  | cons name node rest =>
    rw [recurseEntries] at hs
    rcases List.mem_append.mp hs with h | h
    · exact recurseNode_paths ign node (p ++ name) s h
    · exact recurseEntries_paths ign rest p s h
end

theorem fsfold_paths (ign : List (List Str)) (fs : FS) :
    ∀ (paths : List (List Str)) (s : LogStream),
      s ∈ paths.foldr (fun full_path acc =>
        (if is_ignored ign full_path then []
         else
           match fsFind fs full_path with
           | some (.file n) => recurseNode ign n full_path
           | _ => []) ++ acc) [] →
      is_ignored ign s.path = false := by
  intro paths
  induction paths with
  | nil =>
    intro s hs
    cases hs
  | cons q qs ih =>
    intro s hs
    rw [List.foldr_cons] at hs
    rcases List.mem_append.mp hs with h | h
    · by_cases hig : is_ignored ign q = true
      · rw [if_pos hig] at h
        cases h
      · rw [if_neg hig] at h
        cases hf : fsFind fs q with
        | none =>
          rw [hf] at h
          cases h
        | some e =>
          cases e with
          | dir =>
            rw [hf] at h
            cases h
          | file n =>
            rw [hf] at h
            exact recurseNode_paths ign n q s h
    · exact ih s h

/-- Every stream the filesystem traversal produces has a path the
ignore list does not match. -/
theorem ignored_paths_absent (ign : List (List Str)) (roots : List (List Str)) (fs : FS) :
    ∀ s ∈ recurse_in_filesystem ign roots fs, is_ignored ign s.path = false := by
  intro s hs
  exact fsfold_paths ign fs _ s hs

/-- C6 amended. A node whose own logical path matches the ignore list
is itself skipped entirely: it is not opened as zip, tar or log stream
and contributes no streams (in particular, when that node is an archive
its contents are reached through no other route, so they are never
listed), and no stream anywhere in the merge set — from the filesystem
or from any traversal node — carries an ignored logical path. The claim
fails, however, in its assertion that no entry beneath an ignored node
is visited: both the filesystem walk (whose glob listing is expanded up
front) and the archive walks (whose index listings are flat, with entry
names spanning several components) check each entry only against its
own full path, so an entry beneath an ignored directory path is still
visited, opened and able to contribute a stream; see
`ignored_path_cex` for both cases. -/
theorem ignored_path_spec (ign : List (List Str)) (filepaths : List (List Str)) (fs : FS)
    (n : Node) (full_path : List Str) (h : is_ignored ign full_path = true) :
    recurseNode ign n full_path = [] ∧
    (∀ (n0 : Node) (p0 : List Str), ∀ s ∈ recurseNode ign n0 p0, s.path ≠ full_path) ∧
    ∀ s ∈ recurse_in_filesystem ign filepaths fs, s.path ≠ full_path := by
  refine ⟨recurseNode_ignored h, ?_, ?_⟩
  · intro n0 p0 s hs heq
    have hfalse := recurseNode_paths ign n0 p0 s hs
    rw [heq, h] at hfalse
    cases hfalse
  · intro s hs heq
    have hfalse := ignored_paths_absent ign filepaths fs s hs
    rw [heq, h] at hfalse
    cases hfalse

/-- Witness for C6: an ignored zip node yields nothing, and neither the
stream the concrete filesystem traversal produces nor the one the
concrete archive traversal produces carries the ignored directory
path. -/
theorem ignored_path_spec_witness :
    recurseNode exIgn exZipNode ["secret".data] = [] ∧
    exFsStream.path ≠ ["r".data, "secret".data] ∧
    exZipStream.path ≠ ["r.zip".data, "secret".data] :=
  ⟨(ignored_path_spec exIgn exRoots exFs exZipNode ["secret".data] (by decide)).1,
   (ignored_path_spec exIgn exRoots exFs exZipNode ["r".data, "secret".data]
     (by decide)).2.2 exFsStream (by decide),
   (ignored_path_spec exIgn exRoots exFs exZipNode ["r.zip".data, "secret".data]
     (by decide)).2.1 exSecretZip ["r.zip".data] exZipStream (by decide)⟩

/-- C6 counterexample: with ignore pattern `secret`, the filesystem
directory `r/secret` and the archive path `r.zip/secret` both match the
ignore list, yet in each case the file beneath them is visited, opened
and contributes a stream: the filesystem listing was expanded up front,
and the zip index is a flat list in which `secret/a.log` is its own
entry, checked only against its own path. -/
theorem ignored_path_cex :
    is_ignored exIgn ["r".data, "secret".data] = true ∧
    (recurse_in_filesystem exIgn exRoots exFs).map (fun s => s.path) =
      [["r".data, "secret".data, "a.log".data]] ∧
    is_ignored exIgn ["r.zip".data, "secret".data] = true ∧
    (recurseNode exIgn exSecretZip ["r.zip".data]).map (fun s => s.path) =
      [["r.zip".data, "secret".data, "a.log".data]] := by
  decide
